import Mathlib

/-!
Verification of the KaTeX font bundler
(`src/main/resources/chat-window/bundle-katex-fonts.py`).

The script reads a stylesheet, discovers `url(fonts/...)` references with the
regex `url\(["']?(fonts/[^)"']+)["']?\)`, downloads each referenced font (or
reads it from a local cache), base64-encodes the bytes into a `data:` URI and
textually replaces the three quoting variants of each reference.  Everything
below is a shallow embedding of that script: stylesheet text is `List Char`,
file and network contents are association lists, and every function mirrors
the corresponding Python code.
-/

namespace KatexBundler

abbrev Text := List Char

/-- The double-quote character. -/
def dquote : Char := Char.ofNat 34

/-- The single-quote character. -/
def squote : Char := Char.ofNat 39

/-- Boolean test that `k` is an initial run of `t`. -/
def leadsB : Text → Text → Bool
  | [], _ => true
  | _ :: _, [] => false
  | a :: as, b :: bs => a = b && leadsB as bs

/-- Propositional form: `t` starts with `k`. -/
def Leads (k t : Text) : Prop := ∃ r, t = k ++ r

/-- Boolean substring test: some suffix of `t` starts with `k`. -/
def hasSub (k : Text) : Text → Bool
  | [] => leadsB k []
  | c :: t => leadsB k (c :: t) || hasSub k t

/-- Association-list lookup, modelling a file system or network keyed by path. -/
def lookupA {β : Type} : List (Text × β) → Text → Option β
  | [], _ => none
  | (k, v) :: rest, p => if k = p then some v else lookupA rest p

/-- Lexicographic (code-point) strict order on text, as Python compares `str`. -/
def lexLt : Text → Text → Bool
  | [], [] => false
  | [], _ :: _ => true
  | _ :: _, [] => false
  | a :: as, b :: bs => if a < b then true else if b < a then false else lexLt as bs

/-- Insert into a sorted duplicate-free list, keeping it sorted and duplicate-free. -/
def insertSorted (x : Text) : List Text → List Text
  | [] => [x]
  | y :: ys => if lexLt x y then x :: y :: ys else if x = y then y :: ys else y :: insertSorted x ys

/-- Model of `sorted(set(l))` from the script: sorted, duplicates collapsed. -/
def sortDedup (l : List Text) : List Text := l.foldr insertSorted []

/-! ## Reference discovery: the regex `url\(["']?(fonts/[^)"']+)["']?\)` -/

/-- Characters allowed in the captured body: the regex class excludes a closing
parenthesis and both quote characters. -/
def notDelim (c : Char) : Bool := !(c = ')' || c = dquote || c = squote)

/-- The literal `fonts/` the capture group must start with. -/
def fontsLit : Text := ['f', 'o', 'n', 't', 's', '/']

/-- Match the regex tail after the literal `url(`: optional quote, `fonts/`,
one or more non-delimiter characters, optional quote, `)`.  Returns the
capture and the rest of the input after the whole match.  The regex engine's
backtracking is deterministic here: the optional quotes can only match when a
quote is present (the capture can never start with or end before a quote). -/
def matchAfterParen (s : Text) : Option (Text × Text) :=
  let s1 := match s with
    | c :: r => if c = dquote || c = squote then r else c :: r
    | [] => []
  if leadsB fontsLit s1 then
    let r2 := s1.drop 6
    let body := r2.takeWhile notDelim
    let r3 := r2.dropWhile notDelim
    if body.isEmpty then none
    else
      match r3 with
      | ')' :: r4 => some (fontsLit ++ body, r4)
      | c :: ')' :: r4 =>
        if c = dquote || c = squote then some (fontsLit ++ body, r4) else none
      | _ => none
  else none

/-- Try to match the whole regex at the current position. -/
def matchToken : Text → Option (Text × Text)
  | 'u' :: 'r' :: 'l' :: '(' :: rest => matchAfterParen rest
  | _ => none

/-- Model of `re.findall`: scan left to right, collect captures of non-overlapping
leftmost matches, resume after each match.  Fuel is the input length. -/
def findallAux : Nat → Text → List Text
  | 0, _ => []
  | _ + 1, [] => []
  | fuel + 1, c :: s =>
    match matchToken (c :: s) with
    | some (cap, rest) => cap :: findallAux fuel rest
    | none => findallAux fuel s

/-- All captures of the url regex, in textual order. -/
def findall (t : Text) : List Text := findallAux t.length t

/-- Model of `sorted(set(url_pattern.findall(css)))`: the discovered font references. -/
def discoverRefs (t : Text) : List Text := sortDedup (findall t)

/-! ## Base64 and data URIs -/

/-- The standard (non-URL-safe) base64 alphabet. -/
def b64Alphabet : Text :=
  "ABCDEFGHIJKLMNOPQRSTUVWXYZabcdefghijklmnopqrstuvwxyz0123456789+/".toList

/-- Character for a 6-bit value. -/
def b64char (n : Nat) : Char := b64Alphabet.getD n 'A'

/-- Value of a base64 character, if it is in the alphabet. -/
def b64val (c : Char) : Option Nat := b64Alphabet.findIdx? (fun x => x = c)

/-- Model of `base64.b64encode`: standard alphabet, padded, over a byte list. -/
def b64encode : List Nat → Text
  | [] => []
  | [b1] => [b64char (b1 / 4), b64char (b1 % 4 * 16), '=', '=']
  | [b1, b2] => [b64char (b1 / 4), b64char (b1 % 4 * 16 + b2 / 16), b64char (b2 % 16 * 4), '=']
  | b1 :: b2 :: b3 :: rest =>
    b64char (b1 / 4) :: b64char (b1 % 4 * 16 + b2 / 16) ::
      b64char (b2 % 16 * 4 + b3 / 64) :: b64char (b3 % 64) :: b64encode rest

/-- Standard base64 decoding of a padded string, the inverse direction used to
state the round-trip property. -/
def b64decode : Text → Option (List Nat)
  | [] => some []
  | e1 :: e2 :: e3 :: e4 :: rest =>
    match b64val e1, b64val e2 with
    | some v1, some v2 =>
      if e3 = '=' then
        if e4 = '=' ∧ rest = [] then some [v1 * 4 + v2 / 16] else none
      else
        match b64val e3 with
        | some v3 =>
          if e4 = '=' then
            if rest = [] then some [v1 * 4 + v2 / 16, v2 % 16 * 16 + v3 / 4] else none
          else
            match b64val e4 with
            | some v4 =>
              match b64decode rest with
              | some bs => some ((v1 * 4 + v2 / 16) :: (v2 % 16 * 16 + v3 / 4) :: (v3 % 4 * 64 + v4) :: bs)
              | none => none
            | none => none
        | none => none
    | _, _ => none
  | _ => none

/-- Model of the data-URI format string: the data scheme, the MIME, the base64 marker, the payload. -/
def make_data_uri (mime : Text) (data : List Nat) : Text :=
  "data:".toList ++ mime ++ ";base64,".toList ++ b64encode data

/-! ## MIME classification (`get_mime_type`) -/

/-- The extension part of `os.path.splitext`, including the leading dot:
the suffix of the basename after its last dot, empty when the basename has no
dot or all characters before that dot are dots. -/
def extOf (p : Text) : Text :=
  let base := (p.reverse.takeWhile (fun c => c ≠ '/')).reverse
  let r := base.reverse
  let suf := r.takeWhile (fun c => c ≠ '.')
  let rest := r.dropWhile (fun c => c ≠ '.')
  match rest with
  | [] => []
  | _ :: preRev => if preRev.any (fun c => c ≠ '.') then '.' :: suf.reverse else []

/-- Model of `get_mime_type`: table lookup on the lowercased extension with a generic
binary default. -/
def get_mime_type (p : Text) : Text :=
  let ext := (extOf p).map Char.toLower
  if ext = ".woff2".toList then "font/woff2".toList
  else if ext = ".woff".toList then "font/woff".toList
  else if ext = ".ttf".toList then "font/ttf".toList
  else if ext = ".eot".toList then "application/vnd.ms-fontembedded-opentype".toList
  else "application/octet-stream".toList

/-! ## Textual replacement (`str.replace`, all occurrences, left to right) -/

/-- Fueled worker for `str.replace`: at each position, if the key starts here,
emit the value and skip the key, otherwise copy one character. -/
def replaceAllAux (k v : Text) : Nat → Text → Text
  | 0, t => t
  | _ + 1, [] => []
  | fuel + 1, c :: t =>
    if leadsB k (c :: t) then v ++ replaceAllAux k v fuel (List.drop (k.length - 1) t)
    else c :: replaceAllAux k v fuel t

/-- Model of `t.replace(k, v)` for nonempty `k`. -/
def replaceAll (t k v : Text) : Text := replaceAllAux k v t.length t

/-- The unquoted textual form `url(m)`. -/
def uform (m : Text) : Text := 'u' :: 'r' :: 'l' :: '(' :: (m ++ [')'])

/-- A quoted textual form `url(qmq)` for a quote character `q`. -/
def qform (q : Char) (m : Text) : Text := 'u' :: 'r' :: 'l' :: '(' :: q :: (m ++ [q, ')'])

/-- The six replace passes of the script's loop body, flattened: for each
`(font_path, data_uri)` entry the unquoted, double-quoted and single-quoted
key/value pair, in the script's order. -/
def pairsOf (reps : List (Text × Text)) : List (Text × Text) :=
  reps.flatMap (fun pd =>
    [(uform pd.1, uform pd.2), (qform dquote pd.1, qform dquote pd.2),
     (qform squote pd.1, qform squote pd.2)])

/-- Sequential application of replace passes, in order. -/
def foldPasses (t : Text) (pairs : List (Text × Text)) : Text :=
  pairs.foldl (fun acc kv => replaceAll acc kv.1 kv.2) t

/-- The script's replacement loop over the `replacements` dict. -/
def applyReplacements (t : Text) (reps : List (Text × Text)) : Text :=
  foldPasses t (pairsOf reps)

/-! ## The effectful pipeline (`download_font` and `bundle`) -/

/-- The ambient world of a run: the input stylesheet (if the file exists), the
local font cache and the network (a path is fetchable iff present; an absent
path models a fetch that raises). -/
structure Env where
  inputCss : Option Text
  cache : List (Text × List Nat)
  net : List (Text × List Nat)

/-- Model of `download_font`: local cache wins; otherwise fetch and persist.  `none`
models the raised exception.  The boolean records whether a network fetch
happened. -/
def download_font (cache net : List (Text × List Nat)) (p : Text) :
    Option (List Nat × List (Text × List Nat) × Bool) :=
  match lookupA cache p with
  | some d => some (d, cache, false)
  | none =>
    match lookupA net p with
    | some d => some (d, (p, d) :: cache, true)
    | none => none

/-- Accumulator of the download/encode loop. -/
structure FetchState where
  cache : List (Text × List Nat)
  fetched : List Text
  replacements : List (Text × Text)
  failed : List Text

/-- The `for font_path in unique_fonts` loop: per-reference try/except, failed
references are logged and skipped, successes appended to the replacement dict
in order. -/
def processFonts (net : List (Text × List Nat)) : List Text → FetchState → FetchState
  | [], st => st
  | p :: rest, st =>
    match download_font st.cache net p with
    | some (d, cache', didFetch) =>
      processFonts net rest
        { cache := cache'
          fetched := if didFetch then st.fetched ++ [p] else st.fetched
          replacements := st.replacements ++ [(p, make_data_uri (get_mime_type p) d)]
          failed := st.failed }
    | none =>
      processFonts net rest { st with failed := st.failed ++ [p] }

/-- Outcome of a run: the written output file (if any), the final cache, the
fetch log, the replacement mapping and the failed references. -/
structure RunResult where
  output : Option Text
  cache : List (Text × List Nat)
  fetched : List Text
  replacements : List (Text × Text)
  failed : List Text

/-- Model of `bundle()`: guard on the input file, discover, download/encode each
reference, substitute, write the output. -/
def bundle (env : Env) : RunResult :=
  match env.inputCss with
  | none =>
    { output := none, cache := env.cache, fetched := [], replacements := [], failed := [] }
  | some css =>
    let fonts := discoverRefs css
    let st := processFonts env.net fonts
      { cache := env.cache, fetched := [], replacements := [], failed := [] }
    { output := some (applyReplacements css st.replacements)
      cache := st.cache
      fetched := st.fetched
      replacements := st.replacements
      failed := st.failed }

/-! ## Basic facts about the text utilities -/

theorem leadsB_iff (k : Text) : ∀ t, leadsB k t = true ↔ Leads k t := by
  induction k with
  | nil =>
    intro t
    constructor
    · intro _; exact ⟨t, rfl⟩
    · intro _; rfl
  | cons a as ih =>
    intro t
    cases t with
    | nil =>
      simp only [leadsB, Bool.false_eq_true, false_iff, Leads]
      rintro ⟨r, h⟩
      cases h
    | cons b bs =>
      simp only [leadsB, Bool.and_eq_true, decide_eq_true_eq, ih, Leads]
      constructor
      · rintro ⟨rfl, r, rfl⟩
        exact ⟨r, rfl⟩
      · rintro ⟨r, h⟩
        injection h with h1 h2
        exact ⟨h1.symm, r, h2⟩

theorem Leads.length_le {k t : Text} (h : Leads k t) : k.length ≤ t.length := by
  obtain ⟨r, rfl⟩ := h
  simp

theorem Leads.getD_eq {k t : Text} (h : Leads k t) (d : Char) {i : Nat} (hi : i < k.length) :
    t.getD i d = k.getD i d := by
  obtain ⟨r, rfl⟩ := h
  exact List.getD_append k r d i hi

theorem leads_append (k r : Text) : Leads k (k ++ r) := ⟨r, rfl⟩

theorem leads_refl (k : Text) : Leads k k := ⟨[], by simp⟩

theorem leads_of_leads_of_le {a b t : Text} (ha : Leads a t) (hb : Leads b t)
    (hab : a.length ≤ b.length) : Leads a b := by
  obtain ⟨r, hr⟩ := ha
  obtain ⟨s, hs⟩ := hb
  have h1 : a = b.take a.length := by
    have e1 : t.take a.length = a := by rw [hr, List.take_left]
    have e2 : t.take a.length = b.take a.length := by
      rw [hs, List.take_append_of_le_length hab]
    rw [← e2]
    exact e1.symm
  have h2 : Leads (b.take a.length) b :=
    ⟨b.drop a.length, (List.take_append_drop a.length b).symm⟩
  rwa [← h1] at h2

theorem getD_drop (l : Text) (d : Char) {j i : Nat} (h : j + i < l.length) :
    (l.drop j).getD i d = l.getD (j + i) d := by
  rw [List.getD_eq_getElem l d h,
    List.getD_eq_getElem _ d (by simp only [List.length_drop]; omega)]
  simp [List.getElem_drop]

theorem hasSub_iff (k : Text) : ∀ t, hasSub k t = true ↔ ∃ a b, t = a ++ k ++ b := by
  intro t
  induction t with
  | nil =>
    simp only [hasSub, leadsB_iff]
    constructor
    · rintro ⟨r, h⟩
      exact ⟨[], r, by simpa using h⟩
    · rintro ⟨a, b, h⟩
      have ha : a = [] := by
        cases a with
        | nil => rfl
        | cons x xs => simp at h
      subst ha
      exact ⟨b, by simpa using h⟩
  | cons c t ih =>
    simp only [hasSub, Bool.or_eq_true, leadsB_iff, ih]
    constructor
    · rintro (⟨r, h⟩ | ⟨a, b, rfl⟩)
      · exact ⟨[], r, by simpa using h⟩
      · exact ⟨c :: a, b, by simp⟩
    · rintro ⟨a, b, h⟩
      cases a with
      | nil =>
        left
        exact ⟨b, by simpa using h⟩
      | cons x xs =>
        right
        injection h with h1 h2
        exact ⟨xs, b, h2⟩

/-! ## Facts about `lexLt`, `insertSorted`, `sortDedup` -/

theorem lexLt_irrefl : ∀ a : Text, lexLt a a = false := by
  intro a
  induction a with
  | nil => rfl
  | cons x xs ih => simp [lexLt, ih]

theorem lexLt_ne {a b : Text} (h : lexLt a b = true) : a ≠ b := by
  rintro rfl
  rw [lexLt_irrefl] at h
  exact Bool.false_ne_true h

theorem lexLt_total : ∀ a b : Text, lexLt a b = false → a ≠ b → lexLt b a = true := by
  intro a
  induction a with
  | nil =>
    intro b hab hne
    cases b with
    | nil => exact absurd rfl hne
    | cons y ys => simp [lexLt] at hab
  | cons x xs ih =>
    intro b hab hne
    cases b with
    | nil => rfl
    | cons y ys =>
      simp only [lexLt] at hab ⊢
      by_cases h1 : x < y
      · simp [h1] at hab
      · by_cases h2 : y < x
        · simp [h2]
        · have hxy : x = y := le_antisymm (not_lt.mp h2) (not_lt.mp h1)
          subst hxy
          simp only [lt_self_iff_false, if_false] at hab ⊢
          refine ih ys hab ?_
          intro hys
          exact hne (by rw [hys])

theorem lexLt_trans : ∀ a b c : Text, lexLt a b = true → lexLt b c = true → lexLt a c = true := by
  intro a
  induction a with
  | nil =>
    intro b c hab hbc
    cases b with
    | nil => simp [lexLt] at hab
    | cons y ys =>
      cases c with
      | nil => simp [lexLt] at hbc
      | cons z zs => simp [lexLt]
  | cons x xs ih =>
    intro b c hab hbc
    cases b with
    | nil => simp [lexLt] at hab
    | cons y ys =>
      cases c with
      | nil => simp [lexLt] at hbc
      | cons z zs =>
        simp only [lexLt] at hab hbc ⊢
        by_cases h1 : x < y
        · by_cases h2 : y < z
          · simp [lt_trans h1 h2]
          · by_cases h3 : z < y
            · simp [h2, h3] at hbc
            · have : y = z := le_antisymm (not_lt.mp h3) (not_lt.mp h2)
              subst this
              simp [h1]
        · by_cases h3 : y < x
          · simp [h1, h3] at hab
          · have hxy : x = y := le_antisymm (not_lt.mp h3) (not_lt.mp h1)
            subst hxy
            simp only [lt_self_iff_false, if_false] at hab
            by_cases h2 : x < z
            · simp [h2]
            · by_cases h4 : z < x
              · simp [h2, h4] at hbc
              · have : x = z := le_antisymm (not_lt.mp h4) (not_lt.mp h2)
                subst this
                simp only [lt_self_iff_false, if_false] at hbc ⊢
                exact ih ys zs hab hbc

theorem mem_insertSorted (x : Text) : ∀ l y, y ∈ insertSorted x l ↔ y = x ∨ y ∈ l := by
  intro l
  induction l with
  | nil => intro y; simp [insertSorted]
  | cons z zs ih =>
    intro y
    simp only [insertSorted]
    split
    · simp [List.mem_cons]
    · split
      · rename_i h2
        subst h2
        simp only [List.mem_cons]
        tauto
      · simp only [List.mem_cons, ih]
        tauto

theorem pairwise_insertSorted (x : Text) :
    ∀ l, l.Pairwise (fun a b => lexLt a b = true) →
      (insertSorted x l).Pairwise (fun a b => lexLt a b = true) := by
  intro l
  induction l with
  | nil => intro _; simp [insertSorted]
  | cons z zs ih =>
    intro h
    rw [List.pairwise_cons] at h
    obtain ⟨hz, hzs⟩ := h
    simp only [insertSorted]
    split
    · rename_i h1
      rw [List.pairwise_cons]
      refine ⟨?_, List.Pairwise.cons hz hzs⟩
      intro y hy
      rcases List.mem_cons.mp hy with rfl | hy
      · exact h1
      · exact lexLt_trans _ _ _ h1 (hz y hy)
    · rename_i h1
      split
      · exact List.Pairwise.cons hz hzs
      · rename_i h2
        rw [List.pairwise_cons]
        refine ⟨?_, ih hzs⟩
        intro y hy
        rcases (mem_insertSorted x zs y).mp hy with rfl | hy
        · exact lexLt_total _ z (by simpa using h1) h2
        · exact hz y hy

theorem sortDedup_pairwise (l : List Text) :
    (sortDedup l).Pairwise (fun a b => lexLt a b = true) := by
  unfold sortDedup
  induction l with
  | nil => simp
  | cons x xs ih => exact pairwise_insertSorted x _ ih

theorem mem_sortDedup (l : List Text) (y : Text) : y ∈ sortDedup l ↔ y ∈ l := by
  unfold sortDedup
  induction l with
  | nil => simp
  | cons x xs ih =>
    simp only [List.foldr_cons, mem_insertSorted, ih, List.mem_cons]

theorem sortDedup_nodup (l : List Text) : (sortDedup l).Nodup := by
  have h := sortDedup_pairwise l
  exact h.imp (fun hab => lexLt_ne hab)

/-! ## Character facts about discovered references -/

/-- Shape of a regex capture: the `fonts/` literal followed by a nonempty body
of non-delimiter characters. -/
def CaptureShape (p : Text) : Prop :=
  ∃ body, p = fontsLit ++ body ∧ body ≠ [] ∧ ∀ c ∈ body, notDelim c = true

theorem matchAfterParen_capture {s cap rest : Text}
    (h : matchAfterParen s = some (cap, rest)) : CaptureShape cap := by
  simp only [matchAfterParen] at h
  split at h
  · split at h
    · exact absurd h (by simp)
    · rename_i hbody
      split at h
      · injection h with h1
        injection h1 with h2 h3
        refine ⟨_, h2.symm, ?_, ?_⟩
        · intro hnil
          rw [hnil] at hbody
          simp at hbody
        · intro c hc
          exact List.mem_takeWhile_imp hc
      · split at h
        · injection h with h1
          injection h1 with h2 h3
          refine ⟨_, h2.symm, ?_, ?_⟩
          · intro hnil
            rw [hnil] at hbody
            simp at hbody
          · intro c hc
            exact List.mem_takeWhile_imp hc
        · exact absurd h (by simp)
      · exact absurd h (by simp)
  · exact absurd h (by simp)

theorem matchToken_capture {s cap rest : Text}
    (h : matchToken s = some (cap, rest)) : CaptureShape cap := by
  unfold matchToken at h
  split at h
  · exact matchAfterParen_capture h
  · exact absurd h (by simp)

theorem findallAux_capture :
    ∀ fuel s p, p ∈ findallAux fuel s → CaptureShape p := by
  intro fuel
  induction fuel with
  | zero => intro s p h; simp [findallAux] at h
  | succ n ih =>
    intro s p h
    cases s with
    | nil => simp [findallAux] at h
    | cons c t =>
      rw [findallAux] at h
      cases hm : matchToken (c :: t) with
      | none =>
        rw [hm] at h
        exact ih _ _ h
      | some pr =>
        obtain ⟨cap, rest⟩ := pr
        rw [hm] at h
        rcases List.mem_cons.mp h with rfl | h
        · exact matchToken_capture hm
        · exact ih _ _ h

theorem findall_capture {t p : Text} (h : p ∈ findall t) : CaptureShape p :=
  findallAux_capture _ _ _ h

theorem notDelim_char {c : Char} (h : notDelim c = true) :
    c ≠ ')' ∧ c ≠ dquote ∧ c ≠ squote := by
  simp only [notDelim, Bool.not_eq_true', Bool.or_eq_false_iff, decide_eq_false_iff_not] at h
  exact ⟨h.1.1, h.1.2, h.2⟩

theorem fontsLit_char : ∀ c ∈ fontsLit, c ≠ ')' ∧ c ≠ dquote ∧ c ≠ squote := by decide

/-- Every capture starts with `fonts/`, has length at least 7 and contains no
closing parenthesis and no quote of either kind. -/
theorem captureShape_facts {p : Text} (h : CaptureShape p) :
    Leads fontsLit p ∧ 7 ≤ p.length ∧ ∀ c ∈ p, c ≠ ')' ∧ c ≠ dquote ∧ c ≠ squote := by
  obtain ⟨body, rfl, hne, hchars⟩ := h
  refine ⟨leads_append _ _, ?_, ?_⟩
  · have : 1 ≤ body.length := by
      cases body with
      | nil => exact absurd rfl hne
      | cons _ _ => simp
    simp only [List.length_append]
    have : fontsLit.length = 6 := by decide
    omega
  · intro c hc
    rcases List.mem_append.mp hc with hc | hc
    · exact fontsLit_char c hc
    · exact notDelim_char (hchars c hc)

theorem discoverRefs_capture {t p : Text} (h : p ∈ discoverRefs t) : CaptureShape p :=
  findall_capture ((mem_sortDedup _ _).mp h)

/-! ## Base64: alphabet facts and the round trip -/

theorem b64val_b64char : ∀ v : Nat, v < 64 → b64val (b64char v) = some v := by decide

theorem b64char_ne_pad : ∀ v : Nat, v < 64 → b64char v ≠ '=' := by decide

theorem b64char_ascii : ∀ v : Nat, v < 64 → (b64char v).toNat < 128 := by decide

theorem b64char_plain : ∀ v : Nat, v < 64 →
    b64char v ≠ '(' ∧ b64char v ≠ ')' ∧ b64char v ≠ dquote ∧ b64char v ≠ squote := by decide

/-- Every character the encoder emits is an alphabet character or the pad. -/
theorem b64encode_chars :
    ∀ B : List Nat, (∀ b ∈ B, b < 256) →
      ∀ c ∈ b64encode B, (∃ v, v < 64 ∧ c = b64char v) ∨ c = '=' := by
  intro B
  induction B using b64encode.induct with
  | case1 => intro _ c hc; simp [b64encode] at hc
  | case2 b1 =>
    intro hB c hc
    have h1 : b1 < 256 := hB b1 (by simp)
    simp only [b64encode, List.mem_cons] at hc
    rcases hc with rfl | rfl | rfl | rfl | hc
    · exact Or.inl ⟨b1 / 4, by omega, rfl⟩
    · exact Or.inl ⟨b1 % 4 * 16, by omega, rfl⟩
    · exact Or.inr rfl
    · exact Or.inr rfl
    · simp at hc
  | case3 b1 b2 =>
    intro hB c hc
    have h1 : b1 < 256 := hB b1 (by simp)
    have h2 : b2 < 256 := hB b2 (by simp)
    simp only [b64encode, List.mem_cons] at hc
    rcases hc with rfl | rfl | rfl | rfl | hc
    · exact Or.inl ⟨b1 / 4, by omega, rfl⟩
    · exact Or.inl ⟨b1 % 4 * 16 + b2 / 16, by omega, rfl⟩
    · exact Or.inl ⟨b2 % 16 * 4, by omega, rfl⟩
    · exact Or.inr rfl
    · simp at hc
  | case4 b1 b2 b3 rest ih =>
    intro hB c hc
    have h1 : b1 < 256 := hB b1 (by simp)
    have h2 : b2 < 256 := hB b2 (by simp)
    have h3 : b3 < 256 := hB b3 (by simp)
    simp only [b64encode, List.mem_cons] at hc
    rcases hc with rfl | rfl | rfl | rfl | hc
    · exact Or.inl ⟨b1 / 4, by omega, rfl⟩
    · exact Or.inl ⟨b1 % 4 * 16 + b2 / 16, by omega, rfl⟩
    · exact Or.inl ⟨b2 % 16 * 4 + b3 / 64, by omega, rfl⟩
    · exact Or.inl ⟨b3 % 64, by omega, rfl⟩
    · exact ih (fun b hb => hB b (by simp [hb])) c hc

theorem b64encode_ascii {B : List Nat} (hB : ∀ b ∈ B, b < 256) :
    ∀ c ∈ b64encode B, c.toNat < 128 := by
  intro c hc
  rcases b64encode_chars B hB c hc with ⟨v, hv, rfl⟩ | rfl
  · exact b64char_ascii v hv
  · decide

/-- Decoding inverts encoding on genuine byte lists. -/
theorem b64_roundtrip :
    ∀ B : List Nat, (∀ b ∈ B, b < 256) → b64decode (b64encode B) = some B := by
  intro B
  induction B using b64encode.induct with
  | case1 => intro _; rfl
  | case2 b1 =>
    intro hB
    have h1 : b1 < 256 := hB b1 (by simp)
    have e1 := b64val_b64char (b1 / 4) (by omega)
    have e2 := b64val_b64char (b1 % 4 * 16) (by omega)
    simp only [b64encode, b64decode, e1, e2]
    simp only [Option.some.injEq, List.cons.injEq, and_true]
    simp
    omega
  | case3 b1 b2 =>
    intro hB
    have h1 : b1 < 256 := hB b1 (by simp)
    have h2 : b2 < 256 := hB b2 (by simp)
    have e1 := b64val_b64char (b1 / 4) (by omega)
    have e2 := b64val_b64char (b1 % 4 * 16 + b2 / 16) (by omega)
    have e3 := b64val_b64char (b2 % 16 * 4) (by omega)
    have n3 := b64char_ne_pad (b2 % 16 * 4) (by omega)
    simp only [b64encode, b64decode]
    simp [e1, e2, e3, n3]
    omega
  | case4 b1 b2 b3 rest ih =>
    intro hB
    have h1 : b1 < 256 := hB b1 (by simp)
    have h2 : b2 < 256 := hB b2 (by simp)
    have h3 : b3 < 256 := hB b3 (by simp)
    have hrest := ih (fun b hb => hB b (by simp [hb]))
    have e1 := b64val_b64char (b1 / 4) (by omega)
    have e2 := b64val_b64char (b1 % 4 * 16 + b2 / 16) (by omega)
    have e3 := b64val_b64char (b2 % 16 * 4 + b3 / 64) (by omega)
    have e4 := b64val_b64char (b3 % 64) (by omega)
    have n3 := b64char_ne_pad (b2 % 16 * 4 + b3 / 64) (by omega)
    have n4 := b64char_ne_pad (b3 % 64) (by omega)
    simp only [b64encode, b64decode]
    simp [e1, e2, e3, e4, n3, n4, hrest]
    omega

/-! ## MIME facts -/

theorem get_mime_type_congr {p q : Text}
    (h : (extOf p).map Char.toLower = (extOf q).map Char.toLower) :
    get_mime_type p = get_mime_type q := by
  simp only [get_mime_type, h]

theorem get_mime_type_cases (p : Text) :
    get_mime_type p = "font/woff2".toList ∨ get_mime_type p = "font/woff".toList ∨
    get_mime_type p = "font/ttf".toList ∨
    get_mime_type p = "application/vnd.ms-fontembedded-opentype".toList ∨
    get_mime_type p = "application/octet-stream".toList := by
  simp only [get_mime_type]
  split
  · exact Or.inl rfl
  · split
    · exact Or.inr (Or.inl rfl)
    · split
      · exact Or.inr (Or.inr (Or.inl rfl))
      · split
        · exact Or.inr (Or.inr (Or.inr (Or.inl rfl)))
        · exact Or.inr (Or.inr (Or.inr (Or.inr rfl)))

theorem get_mime_type_plain (p : Text) :
    ∀ c ∈ get_mime_type p, c ≠ '(' ∧ c ≠ ')' ∧ c ≠ dquote ∧ c ≠ squote := by
  rcases get_mime_type_cases p with h | h | h | h | h <;> rw [h] <;> decide

theorem get_mime_type_ascii (p : Text) : ∀ c ∈ get_mime_type p, c.toNat < 128 := by
  rcases get_mime_type_cases p with h | h | h | h | h <;> rw [h] <;> decide

/-! ## Replace-pass lemmas -/

theorem leadsB_self (k r : Text) : leadsB k (k ++ r) = true :=
  (leadsB_iff k (k ++ r)).mpr (leads_append k r)

theorem replaceAllAux_irrel (k v : Text) :
    ∀ n t, t.length ≤ n → ∀ f₁ f₂, t.length ≤ f₁ → t.length ≤ f₂ →
      replaceAllAux k v f₁ t = replaceAllAux k v f₂ t := by
  intro n
  induction n with
  | zero =>
    intro t ht f₁ f₂ h1 h2
    have hnil : t = [] := by
      cases t with
      | nil => rfl
      | cons c s => simp at ht
    subst hnil
    cases f₁ <;> cases f₂ <;> rfl
  | succ n ih =>
    intro t ht f₁ f₂ h1 h2
    cases t with
    | nil => cases f₁ <;> cases f₂ <;> rfl
    | cons c t =>
      have hl : t.length ≤ n := by simpa using ht
      cases f₁ with
      | zero => simp at h1
      | succ f₁ =>
        cases f₂ with
        | zero => simp at h2
        | succ f₂ =>
          have h1' : t.length ≤ f₁ := by simpa using h1
          have h2' : t.length ≤ f₂ := by simpa using h2
          simp only [replaceAllAux]
          by_cases hk : leadsB k (c :: t) = true
          · simp only [hk, if_true]
            have hd : (List.drop (k.length - 1) t).length ≤ t.length := by
              simp [List.length_drop]
            exact congrArg (v ++ ·)
              (ih _ (le_trans hd hl) _ _ (le_trans hd h1') (le_trans hd h2'))
          · simp only [hk, Bool.false_eq_true, if_false]
            exact congrArg (c :: ·) (ih _ hl _ _ h1' h2')

theorem replaceAll_match {k v : Text} (t : Text) (hk : k ≠ []) :
    replaceAll (k ++ t) k v = v ++ replaceAll t k v := by
  cases k with
  | nil => exact absurd rfl hk
  | cons a as =>
    show replaceAllAux (a :: as) v ((a :: as) ++ t).length ((a :: as) ++ t) = _
    simp only [List.cons_append, List.length_cons, List.length_append]
    rw [replaceAllAux]
    rw [if_pos (by simpa using leadsB_self (a :: as) t)]
    have hd : List.drop ((a :: as).length - 1) (as ++ t) = t := by
      simp only [List.length_cons, Nat.add_sub_cancel]
      exact List.drop_left as t
    rw [hd]
    refine congrArg (v ++ ·) ?_
    exact replaceAllAux_irrel (a :: as) v (as.length + t.length) t (by omega) _ _
      (by omega) le_rfl

theorem replaceAll_cons_nomatch {k v : Text} {c : Char} {t : Text}
    (h : ¬ Leads k (c :: t)) : replaceAll (c :: t) k v = c :: replaceAll t k v := by
  show replaceAllAux k v (t.length + 1) (c :: t) = _
  rw [replaceAllAux]
  rw [if_neg (fun hb => h ((leadsB_iff _ _).mp hb))]
  rfl

theorem replaceAll_copy {k v : Text} (s w : Text)
    (h : ∀ i, i < s.length → ¬ Leads k (s.drop i ++ w)) :
    replaceAll (s ++ w) k v = s ++ replaceAll w k v := by
  induction s with
  | nil => simp
  | cons c s ih =>
    have h0 : ¬ Leads k (c :: (s ++ w)) := by
      have := h 0 (by simp)
      simpa using this
    rw [List.cons_append, replaceAll_cons_nomatch h0,
      ih (fun i hi => by
        have := h (i + 1) (by simpa using Nat.succ_lt_succ hi)
        simpa using this)]
    simp

/-! ## The substitution relations

`Rewrites R t u` says `u` is obtained from `t` by replacing some occurrences
of keys of `R` with the corresponding values (the frame property: every
character outside those occurrences is copied).  `Sim R t u` additionally
requires completeness: a character may only be copied when no key of `R`
occurs at its position, so every key occurrence in `t` is replaced. -/

inductive Rewrites (R : List (Text × Text)) : Text → Text → Prop
  | nil : Rewrites R [] []
  | copy (c : Char) (t u : Text) : Rewrites R t u → Rewrites R (c :: t) (c :: u)
  | subst (k v t u : Text) : (k, v) ∈ R → Rewrites R t u → Rewrites R (k ++ t) (v ++ u)

inductive Sim (R : List (Text × Text)) : Text → Text → Prop
  | nil : Sim R [] []
  | copy (c : Char) (t u : Text) : (∀ kv ∈ R, ¬ Leads kv.1 (c :: t)) → Sim R t u →
      Sim R (c :: t) (c :: u)
  | subst (k v t u : Text) : (k, v) ∈ R → Sim R t u → Sim R (k ++ t) (v ++ u)

theorem Sim.toRewrites {R : List (Text × Text)} {t u : Text} (h : Sim R t u) :
    Rewrites R t u := by
  induction h with
  | nil => exact Rewrites.nil
  | copy c t u _ _ ih => exact Rewrites.copy c t u ih
  | subst k v t u hm _ ih => exact Rewrites.subst k v t u hm ih

theorem Sim.memIff {R R' : List (Text × Text)} {t u : Text}
    (hRR : ∀ kv, kv ∈ R ↔ kv ∈ R') (h : Sim R t u) : Sim R' t u := by
  induction h with
  | nil => exact Sim.nil
  | copy c t u hc _ ih =>
    exact Sim.copy c t u (fun kv hkv => hc kv ((hRR kv).mpr hkv)) ih
  | subst k v t u hm _ ih => exact Sim.subst k v t u ((hRR _).mp hm) ih

/-! ## A sound checker for `Rewrites`, used to refute it on concrete data -/

def rwChkAux (R : List (Text × Text)) : Nat → Text → Text → Bool
  | 0, t, u => t.isEmpty && u.isEmpty
  | _ + 1, [], u => u.isEmpty
  | fuel + 1, c :: t, u =>
    (match u with
      | c' :: u' => c = c' && rwChkAux R fuel t u'
      | [] => false)
    || R.any (fun kv => !kv.1.isEmpty && leadsB kv.1 (c :: t) && leadsB kv.2 u &&
        rwChkAux R fuel (List.drop (kv.1.length - 1) t) (u.drop kv.2.length))

def rwChk (R : List (Text × Text)) (t u : Text) : Bool := rwChkAux R t.length t u

theorem rwChkAux_sound {R : List (Text × Text)} (hR : ∀ kv ∈ R, kv.1 ≠ []) :
    ∀ {t u : Text}, Rewrites R t u → ∀ fuel, t.length ≤ fuel →
      rwChkAux R fuel t u = true := by
  intro t u h
  induction h with
  | nil =>
    intro fuel _
    cases fuel <;> simp [rwChkAux]
  | copy c t u _ ih =>
    intro fuel hf
    cases fuel with
    | zero => simp at hf
    | succ f =>
      rw [rwChkAux]
      rw [Bool.or_eq_true]
      left
      simp only [Bool.and_eq_true, decide_eq_true_eq]
      refine ⟨?_, ih f (by simpa using hf)⟩
      trivial
  | subst k v t u hm _ ih =>
    intro fuel hf
    have hk := hR _ hm
    cases k with
    | nil => exact absurd rfl hk
    | cons a as =>
      cases fuel with
      | zero =>
        rw [List.cons_append] at hf
        simp at hf
      | succ f =>
        rw [List.cons_append]
        rw [show rwChkAux R (f + 1) (a :: (as ++ t)) (v ++ u) =
            ((match v ++ u with
              | c' :: u' => a = c' && rwChkAux R f (as ++ t) u'
              | [] => false)
            || R.any (fun kv => !kv.1.isEmpty && leadsB kv.1 (a :: (as ++ t)) &&
                leadsB kv.2 (v ++ u) &&
                rwChkAux R f (List.drop (kv.1.length - 1) (as ++ t))
                  ((v ++ u).drop kv.2.length))) from rfl]
        rw [Bool.or_eq_true]
        right
        rw [List.any_eq_true]
        refine ⟨(a :: as, v), hm, ?_⟩
        simp only [Bool.and_eq_true]
        refine ⟨⟨⟨rfl, ?_⟩, ?_⟩, ?_⟩
        · rw [← List.cons_append]
          exact leadsB_self (a :: as) t
        · exact leadsB_self v u
        · have hd1 : List.drop ((a :: as).length - 1) (as ++ t) = t := by
            simp only [List.length_cons, Nat.add_sub_cancel]
            exact List.drop_left as t
          have hd2 : (v ++ u).drop v.length = u := List.drop_left v u
          rw [hd1, hd2]
          refine ih f ?_
          rw [List.cons_append] at hf
          simp only [List.length_cons, List.length_append] at hf
          omega

theorem rwChk_refutes {R : List (Text × Text)} {t u : Text}
    (hR : ∀ kv ∈ R, kv.1 ≠ []) (h : rwChk R t u = false) : ¬ Rewrites R t u := by
  intro hrw
  have hs := rwChkAux_sound hR hrw t.length le_rfl
  rw [rwChk, hs] at h
  simp at h

/-! ## Shaped strings: `url(`, a parenthesis-free middle, then `)`.

All six textual forms the script replaces (`url(p)`, `url("p")`, `url('p')`
and their data-URI counterparts) have this shape as soon as the middle is
parenthesis-free; the shape forces any two occurrences of shaped strings in a
text to coincide or be disjoint. -/

def Shaped (s : Text) : Prop :=
  ∃ m, s = uform m ∧ ∀ c ∈ m, c ≠ '(' ∧ c ≠ ')'

theorem qform_eq_uform (q : Char) (m : Text) : qform q m = uform (q :: (m ++ [q])) := by
  simp [qform, uform]

theorem uform_length (m : Text) : (uform m).length = m.length + 5 := by
  simp [uform]

theorem uform_eq_append (m : Text) : uform m = ('u' :: 'r' :: 'l' :: '(' :: m) ++ [')'] := rfl

theorem Shaped.five_le {s : Text} (h : Shaped s) : 5 ≤ s.length := by
  obtain ⟨m, rfl, _⟩ := h
  rw [uform_length]
  omega

theorem Shaped.getD_zero {s : Text} (h : Shaped s) (d : Char) : s.getD 0 d = 'u' := by
  obtain ⟨m, rfl, _⟩ := h
  rfl

theorem Shaped.getD_one {s : Text} (h : Shaped s) (d : Char) : s.getD 1 d = 'r' := by
  obtain ⟨m, rfl, _⟩ := h
  rfl

theorem Shaped.getD_two {s : Text} (h : Shaped s) (d : Char) : s.getD 2 d = 'l' := by
  obtain ⟨m, rfl, _⟩ := h
  rfl

theorem Shaped.getD_three {s : Text} (h : Shaped s) (d : Char) : s.getD 3 d = '(' := by
  obtain ⟨m, rfl, _⟩ := h
  rfl

theorem Shaped.getD_last {s : Text} (h : Shaped s) (d : Char) :
    s.getD (s.length - 1) d = ')' := by
  obtain ⟨m, rfl, _⟩ := h
  rw [uform_length]
  have h4 : m.length + 5 - 1 = ('u' :: 'r' :: 'l' :: '(' :: m).length := by
    simp
  rw [h4, uform_eq_append, List.getD_append_right _ _ _ _ (le_refl _)]
  simp

theorem Shaped.lparen_pos {s : Text} (h : Shaped s) (d : Char) {i : Nat}
    (hi : i < s.length) (hc : s.getD i d = '(') : i = 3 := by
  obtain ⟨m, rfl, hm⟩ := h
  rw [uform_length] at hi
  rcases i with _ | _ | _ | _ | j
  · exact absurd hc (by simp [uform, List.getD])
  · exact absurd hc (by simp [uform, List.getD])
  · exact absurd hc (by simp [uform, List.getD])
  · rfl
  · exfalso
    simp only [uform, List.getD_cons_succ] at hc
    have hj : j ≤ m.length := by omega
    rcases lt_or_eq_of_le hj with hj | hj
    · rw [List.getD_append _ _ _ _ hj, List.getD_eq_getElem _ _ hj] at hc
      exact (hm _ (List.getElem_mem hj)).1 hc
    · subst hj
      rw [List.getD_append_right _ _ _ _ (le_refl m.length)] at hc
      simp at hc

theorem Shaped.rparen_pos {s : Text} (h : Shaped s) (d : Char) {i : Nat}
    (hi : i < s.length) (hc : s.getD i d = ')') : i = s.length - 1 := by
  obtain ⟨m, rfl, hm⟩ := h
  rw [uform_length] at hi ⊢
  rcases i with _ | _ | _ | _ | j
  · exact absurd hc (by simp [uform, List.getD])
  · exact absurd hc (by simp [uform, List.getD])
  · exact absurd hc (by simp [uform, List.getD])
  · exact absurd hc (by simp [uform, List.getD])
  · simp only [uform, List.getD_cons_succ] at hc
    have hj : j ≤ m.length := by omega
    rcases lt_or_eq_of_le hj with hj | hj
    · exfalso
      rw [List.getD_append _ _ _ _ hj, List.getD_eq_getElem _ _ hj] at hc
      exact (hm _ (List.getElem_mem hj)).2 hc
    · omega

theorem shaped_lead_eq {a b : Text} (ha : Shaped a) (hb : Shaped b) (h : Leads a b) :
    a = b := by
  obtain ⟨r, rfl⟩ := h
  cases r with
  | nil => simp
  | cons x xs =>
    exfalso
    have ha5 := ha.five_le
    have hlast : (a ++ x :: xs).getD (a.length - 1) ')' = ')' := by
      rw [List.getD_append _ _ _ _ (by omega)]
      exact ha.getD_last ')'
    have hpos := Shaped.rparen_pos hb ')'
      (by simp only [List.length_append]; omega) hlast
    simp only [List.length_append, List.length_cons] at hpos
    omega

theorem shaped_common_lead {a b t : Text} (ha : Shaped a) (hb : Shaped b)
    (h1 : Leads a t) (h2 : Leads b t) : a = b := by
  rcases le_total a.length b.length with hle | hle
  · exact shaped_lead_eq ha hb (leads_of_leads_of_le h1 h2 hle)
  · exact (shaped_lead_eq hb ha (leads_of_leads_of_le h2 h1 hle)).symm

/-- A proper suffix of a shaped string never starts an occurrence of a shaped
string: the suffix of `a` beginning at `j ≥ 1` cannot be an initial run of
`b ++ r`. -/
theorem shaped_no_suffix_lead {a b : Text} (ha : Shaped a) (hb : Shaped b)
    {j : Nat} (hj1 : 1 ≤ j) (hj2 : j < a.length) (r : Text) :
    ¬ Leads (a.drop j) (b ++ r) := by
  intro h
  have ha5 := ha.five_le
  have hb5 := hb.five_le
  by_cases hcase : 4 ≤ a.length - j
  · have e1 : (b ++ r).getD 3 'x' = b.getD 3 'x' := List.getD_append _ _ _ _ (by omega)
    have e2 : (b ++ r).getD 3 'x' = (a.drop j).getD 3 'x' :=
      h.getD_eq 'x' (by simp only [List.length_drop]; omega)
    have e3 : (a.drop j).getD 3 'x' = a.getD (j + 3) 'x' := getD_drop a 'x' (by omega)
    have e4 : a.getD (j + 3) 'x' = '(' := by
      rw [← e3, ← e2, e1, hb.getD_three]
    have := ha.lparen_pos 'x' (by omega) e4
    omega
  · have hi3 : a.length - 1 - j ≤ 2 := by omega
    have e2 : (b ++ r).getD (a.length - 1 - j) 'x' = (a.drop j).getD (a.length - 1 - j) 'x' :=
      h.getD_eq 'x' (by simp only [List.length_drop]; omega)
    have e3 : (a.drop j).getD (a.length - 1 - j) 'x' = a.getD (j + (a.length - 1 - j)) 'x' :=
      getD_drop a 'x' (by omega)
    have e4 : a.getD (j + (a.length - 1 - j)) 'x' = ')' := by
      have hje : j + (a.length - 1 - j) = a.length - 1 := by omega
      rw [hje]
      exact ha.getD_last 'x'
    have e1 : (b ++ r).getD (a.length - 1 - j) 'x' = b.getD (a.length - 1 - j) 'x' :=
      List.getD_append _ _ _ _ (by omega)
    have e5 : b.getD (a.length - 1 - j) 'x' = ')' := by rw [← e1, e2, e3, e4]
    rcases Nat.lt_or_ge (a.length - 1 - j) 1 with hcc | hcc
    · have hz : a.length - 1 - j = 0 := by omega
      rw [hz, hb.getD_zero] at e5
      exact absurd e5 (by decide)
    · rcases Nat.lt_or_ge (a.length - 1 - j) 2 with hcc2 | hcc2
      · have hz : a.length - 1 - j = 1 := by omega
        rw [hz, hb.getD_one] at e5
        exact absurd e5 (by decide)
      · have hz : a.length - 1 - j = 2 := by omega
        rw [hz, hb.getD_two] at e5
        exact absurd e5 (by decide)

/-- A shaped string never starts strictly inside a shaped string: `k` cannot be
an initial run of `b.drop i ++ w` for `1 ≤ i < b.length`. -/
theorem shaped_no_inner_lead {k b : Text} (hk : Shaped k) (hb : Shaped b)
    {i : Nat} (hi1 : 1 ≤ i) (hi2 : i < b.length) (w : Text) :
    ¬ Leads k (b.drop i ++ w) := by
  intro h
  have hk5 := hk.five_le
  have hb5 := hb.five_le
  by_cases hcase : 4 ≤ b.length - i
  · have e2 : (b.drop i ++ w).getD 3 'x' = k.getD 3 'x' := h.getD_eq 'x' (by omega)
    have e1 : (b.drop i ++ w).getD 3 'x' = (b.drop i).getD 3 'x' :=
      List.getD_append _ _ _ _ (by simp only [List.length_drop]; omega)
    have e3 : (b.drop i).getD 3 'x' = b.getD (i + 3) 'x' := getD_drop b 'x' (by omega)
    have e4 : b.getD (i + 3) 'x' = '(' := by
      rw [← e3, ← e1, e2, hk.getD_three]
    have := hb.lparen_pos 'x' (by omega) e4
    omega
  · have hm2 : b.length - 1 - i ≤ 2 := by omega
    have e2 : (b.drop i ++ w).getD (b.length - 1 - i) 'x' = k.getD (b.length - 1 - i) 'x' :=
      h.getD_eq 'x' (by omega)
    have e1 : (b.drop i ++ w).getD (b.length - 1 - i) 'x' = (b.drop i).getD (b.length - 1 - i) 'x' :=
      List.getD_append _ _ _ _ (by simp only [List.length_drop]; omega)
    have e3 : (b.drop i).getD (b.length - 1 - i) 'x' = b.getD (i + (b.length - 1 - i)) 'x' :=
      getD_drop b 'x' (by omega)
    have e4 : b.getD (i + (b.length - 1 - i)) 'x' = ')' := by
      have hieq : i + (b.length - 1 - i) = b.length - 1 := by omega
      rw [hieq]
      exact hb.getD_last 'x'
    have e5 : k.getD (b.length - 1 - i) 'x' = ')' := by rw [← e2, e1, e3, e4]
    rcases Nat.lt_or_ge (b.length - 1 - i) 1 with hcc | hcc
    · have hz : b.length - 1 - i = 0 := by omega
      rw [hz, hk.getD_zero] at e5
      exact absurd e5 (by decide)
    · rcases Nat.lt_or_ge (b.length - 1 - i) 2 with hcc2 | hcc2
      · have hz : b.length - 1 - i = 1 := by omega
        rw [hz, hk.getD_one] at e5
        exact absurd e5 (by decide)
      · have hz : b.length - 1 - i = 2 := by omega
        rw [hz, hk.getD_two] at e5
        exact absurd e5 (by decide)

/-! ## Simulation: sequential replace passes implement simultaneous
substitution when all keys and values are shaped -/

theorem sim_empty (t : Text) : Sim [] t t := by
  induction t with
  | nil => exact Sim.nil
  | cons c t ih => exact Sim.copy c t t (by simp) ih

/-- Occurrence-tracing: if the rewritten text starts with a (suffix of a)
shaped string `k₀` distinct from every replacement value, then the input
starts with it too, aligned with the derivation. -/
theorem sim_span {R : List (Text × Text)} {k₀ : Text} (hk : Shaped k₀)
    (hv : ∀ kv ∈ R, Shaped kv.2 ∧ kv.2 ≠ k₀) :
    ∀ {t u : Text}, Sim R t u → ∀ j, j ≤ k₀.length → Leads (k₀.drop j) u →
      ∃ t₁ u₁, t = k₀.drop j ++ t₁ ∧ u = k₀.drop j ++ u₁ ∧ Sim R t₁ u₁ := by
  intro t u h
  induction h with
  | nil =>
    intro j hj hlead
    obtain ⟨r, hr⟩ := hlead
    have hdnil : k₀.drop j = [] := by
      cases hdrop : k₀.drop j with
      | nil => rfl
      | cons x xs =>
        rw [hdrop] at hr
        simp at hr
    exact ⟨[], [], by simp [hdnil], by simp [hdnil], Sim.nil⟩
  | copy c t u hnc hsim ih =>
    intro j hj hlead
    by_cases hj2 : j = k₀.length
    · subst hj2
      simp only [List.drop_length]
      exact ⟨c :: t, c :: u, by simp, by simp, Sim.copy c t u hnc hsim⟩
    · have hjlt : j < k₀.length := lt_of_le_of_ne hj hj2
      rw [List.drop_eq_getElem_cons hjlt] at hlead ⊢
      obtain ⟨r, hr⟩ := hlead
      injection hr with h1 h2
      obtain ⟨t₁, u₁, ht, hu, hsim₁⟩ := ih (j + 1) (by omega) ⟨r, h2⟩
      refine ⟨t₁, u₁, ?_, ?_, hsim₁⟩
      · rw [List.cons_append, ← ht, h1]
      · rw [List.cons_append, ← hu, h1]
  | subst k v t u hm hsim ih =>
    intro j hj hlead
    obtain ⟨hvS, hvne⟩ := hv (k, v) hm
    by_cases hj2 : j = k₀.length
    · subst hj2
      simp only [List.drop_length]
      exact ⟨k ++ t, v ++ u, by simp, by simp, Sim.subst k v t u hm hsim⟩
    · have hjlt : j < k₀.length := lt_of_le_of_ne hj hj2
      exfalso
      by_cases hj0 : j = 0
      · subst hj0
        rw [List.drop_zero] at hlead
        rcases le_total k₀.length v.length with hle | hle
        · have hlv : Leads k₀ v := leads_of_leads_of_le hlead (leads_append v u) hle
          exact hvne (shaped_lead_eq hk hvS hlv).symm
        · have hlv : Leads v k₀ := leads_of_leads_of_le (leads_append v u) hlead hle
          exact hvne (shaped_lead_eq hvS hk hlv)
      · exact shaped_no_suffix_lead hk hvS (by omega) hjlt u hlead

/-- Mirror of `sim_span` on the input side: an occurrence of a fresh shaped
string `k₀` at the head of the input survives into the rewritten text. -/
theorem sim_span_t {R : List (Text × Text)} {k₀ : Text} (hk : Shaped k₀)
    (hks : ∀ kv ∈ R, Shaped kv.1 ∧ kv.1 ≠ k₀) :
    ∀ {t u : Text}, Sim R t u → ∀ j, j ≤ k₀.length → Leads (k₀.drop j) t →
      ∃ t₁ u₁, t = k₀.drop j ++ t₁ ∧ u = k₀.drop j ++ u₁ ∧ Sim R t₁ u₁ := by
  intro t u h
  induction h with
  | nil =>
    intro j hj hlead
    obtain ⟨r, hr⟩ := hlead
    have hdnil : k₀.drop j = [] := by
      cases hdrop : k₀.drop j with
      | nil => rfl
      | cons x xs =>
        rw [hdrop] at hr
        simp at hr
    exact ⟨[], [], by simp [hdnil], by simp [hdnil], Sim.nil⟩
  | copy c t u hnc hsim ih =>
    intro j hj hlead
    by_cases hj2 : j = k₀.length
    · subst hj2
      simp only [List.drop_length]
      exact ⟨c :: t, c :: u, by simp, by simp, Sim.copy c t u hnc hsim⟩
    · have hjlt : j < k₀.length := lt_of_le_of_ne hj hj2
      rw [List.drop_eq_getElem_cons hjlt] at hlead ⊢
      obtain ⟨r, hr⟩ := hlead
      injection hr with h1 h2
      obtain ⟨t₁, u₁, ht, hu, hsim₁⟩ := ih (j + 1) (by omega) ⟨r, h2⟩
      refine ⟨t₁, u₁, ?_, ?_, hsim₁⟩
      · rw [List.cons_append, ← ht, h1]
      · rw [List.cons_append, ← hu, h1]
  | subst k v t u hm hsim ih =>
    intro j hj hlead
    obtain ⟨hkS, hkne⟩ := hks (k, v) hm
    by_cases hj2 : j = k₀.length
    · subst hj2
      simp only [List.drop_length]
      exact ⟨k ++ t, v ++ u, by simp, by simp, Sim.subst k v t u hm hsim⟩
    · have hjlt : j < k₀.length := lt_of_le_of_ne hj hj2
      exfalso
      by_cases hj0 : j = 0
      · subst hj0
        rw [List.drop_zero] at hlead
        rcases le_total k₀.length k.length with hle | hle
        · have hlv : Leads k₀ k := leads_of_leads_of_le hlead (leads_append k t) hle
          exact hkne (shaped_lead_eq hk hkS hlv).symm
        · have hlv : Leads k k₀ := leads_of_leads_of_le (leads_append k t) hlead hle
          exact hkne (shaped_lead_eq hkS hk hlv)
      · exact shaped_no_suffix_lead hk hkS (by omega) hjlt t hlead

theorem Shaped.nonempty {s : Text} (h : Shaped s) : s ≠ [] := by
  intro hnil
  have := h.five_le
  rw [hnil] at this
  simp at this

theorem sim_nil_inv {R : List (Text × Text)} (hv : ∀ kv ∈ R, Shaped kv.2) :
    ∀ {t u : Text}, Sim R t u → u = [] → t = [] := by
  intro t u h
  induction h with
  | nil => intro _; rfl
  | copy c t u hnc hs ih => intro hc; simp at hc
  | subst k v t u hm hs ih =>
    intro hc
    exfalso
    rcases List.append_eq_nil.mp hc with ⟨hv0, _⟩
    exact (hv _ hm).nonempty hv0

theorem sim_nil_left_inv {R : List (Text × Text)} (hk : ∀ kv ∈ R, Shaped kv.1) :
    ∀ {t u : Text}, Sim R t u → t = [] → u = [] := by
  intro t u h
  induction h with
  | nil => intro _; rfl
  | copy c t u hnc hs ih => intro hc; simp at hc
  | subst k v t u hm hs ih =>
    intro hc
    exfalso
    rcases List.append_eq_nil.mp hc with ⟨hk0, _⟩
    exact (hk _ hm).nonempty hk0

theorem sim_cons_inv {R : List (Text × Text)} {c : Char} {t u : Text}
    (hnc : ∀ kv ∈ R, ¬ Leads kv.1 (c :: t)) :
    ∀ {t' : Text}, Sim R t' u → t' = c :: t → ∃ u₀, u = c :: u₀ ∧ Sim R t u₀ := by
  intro t' h
  cases h with
  | nil =>
    intro he
    simp at he
  | copy c' t₀ u₀ hnc' hs =>
    intro he
    injection he with he1 he2
    subst he1
    subst he2
    exact ⟨u₀, rfl, hs⟩
  | subst k v t₀ u₀ hm hs =>
    intro he
    exact absurd ⟨t₀, he.symm⟩ (hnc (k, v) hm)

theorem sim_subst_inv {R : List (Text × Text)}
    (hkeys : ∀ kv ∈ R, Shaped kv.1)
    (hfun : ∀ kv ∈ R, ∀ kv' ∈ R, kv.1 = kv'.1 → kv.2 = kv'.2)
    {k v t u : Text} (hm : (k, v) ∈ R) :
    ∀ {t' : Text}, Sim R t' u → t' = k ++ t → ∃ u₀, u = v ++ u₀ ∧ Sim R t u₀ := by
  intro t' h
  cases h with
  | nil =>
    intro he
    exfalso
    rcases List.append_eq_nil.mp he.symm with ⟨hk0, _⟩
    exact (hkeys _ hm).nonempty hk0
  | copy c t₀ u₀ hnc hs =>
    intro he
    exact absurd ⟨t, he⟩ (hnc (k, v) hm)
  | subst k' v' t₀ u₀ hm' hs =>
    intro he
    have hkk : k' = k :=
      shaped_common_lead (hkeys _ hm') (hkeys _ hm) (leads_append k' t₀) ⟨t, he⟩
    subst hkk
    have htt : t₀ = t := by rwa [List.append_cancel_left_eq] at he
    subst htt
    have hvv : v' = v := hfun _ hm' _ hm rfl
    subst hvv
    exact ⟨u₀, rfl, hs⟩

/-- One replace pass on a partially rewritten text extends the simulation by
one fresh shaped key/value pair. -/
theorem sim_pass {R : List (Text × Text)} {k v : Text}
    (hSk : Shaped k) (hSv : Shaped v)
    (hR : ∀ kv ∈ R, Shaped kv.1 ∧ Shaped kv.2 ∧ kv.1 ≠ k ∧ kv.2 ≠ k) :
    ∀ n t u, u.length ≤ n → Sim R t u →
      Sim (R ++ [(k, v)]) t (replaceAll u k v) := by
  intro n
  induction n with
  | zero =>
    intro t u hu hsim
    have hunil : u = [] := by
      cases u with
      | nil => rfl
      | cons c s => simp at hu
    subst hunil
    have htnil : t = [] := sim_nil_inv (fun kv hkv => (hR kv hkv).2.1) hsim rfl
    subst htnil
    exact Sim.nil
  | succ n ih =>
    intro t u hu hsim
    by_cases hlead : Leads k u
    · obtain ⟨t₁, u₁, ht, hu₁, hsim₁⟩ :=
        sim_span hSk (fun kv hkv => ⟨(hR kv hkv).2.1, (hR kv hkv).2.2.2⟩) hsim 0
          (by omega) (by simpa using hlead)
      rw [List.drop_zero] at ht hu₁
      rw [ht, hu₁, replaceAll_match u₁ hSk.nonempty]
      refine Sim.subst k v t₁ _ (by simp) ?_
      refine ih t₁ u₁ ?_ hsim₁
      have h5 := hSk.five_le
      have : u.length = k.length + u₁.length := by rw [hu₁]; simp
      omega
    · cases hsim with
      | nil => exact Sim.nil
      | copy c t₀ u₀ hnc hsim₀ =>
        rw [replaceAll_cons_nomatch hlead]
        refine Sim.copy c t₀ _ ?_ (ih t₀ u₀ (by simpa using hu) hsim₀)
        intro kv hkv
        rcases List.mem_append.mp hkv with hkv | hkv
        · exact hnc kv hkv
        · have hkveq : kv = (k, v) := by simpa using hkv
          subst hkveq
          intro hleadT
          obtain ⟨t₁, u₁, ht, hu₁, _⟩ :=
            sim_span_t hSk (fun kv hkv => ⟨(hR kv hkv).1, (hR kv hkv).2.2.1⟩)
              (Sim.copy c t₀ u₀ hnc hsim₀) 0 (by omega) (by simpa using hleadT)
          rw [List.drop_zero] at hu₁
          exact hlead ⟨u₁, hu₁⟩
      | subst k' v' t₀ u₀ hm hsim₀ =>
        obtain ⟨hk'S, hv'S, hk'ne, hv'ne⟩ := hR (k', v') hm
        rw [replaceAll_copy v' u₀ ?occ]
        · refine Sim.subst k' v' t₀ _ (by simp [hm]) (ih t₀ u₀ ?_ hsim₀)
          have h5 : 5 ≤ v'.length := by simpa using hv'S.five_le
          have : (v' ++ u₀).length = v'.length + u₀.length := by simp
          omega
        case occ =>
          intro i hi
          by_cases hi0 : i = 0
          · subst hi0
            simpa using hlead
          · exact shaped_no_inner_lead hSk hv'S (by omega) hi u₀

/-- Well-formedness of the flattened pass list: shaped keys and values,
duplicate-free keys, and no key equal to any value. -/
def GoodPairs (pairs : List (Text × Text)) : Prop :=
  (∀ kv ∈ pairs, Shaped kv.1 ∧ Shaped kv.2) ∧
  (pairs.map Prod.fst).Nodup ∧
  (∀ kv ∈ pairs, ∀ kv' ∈ pairs, kv.1 ≠ kv'.2)

theorem sim_foldPasses_aux :
    ∀ (rest done : List (Text × Text)), GoodPairs (done ++ rest) →
      ∀ t u, Sim done t u → Sim (done ++ rest) t (foldPasses u rest) := by
  intro rest
  induction rest with
  | nil =>
    intro done hg t u h
    simpa [foldPasses] using h
  | cons kv rest ih =>
    intro done hg t u h
    obtain ⟨k, v⟩ := kv
    have hmemk : (k, v) ∈ done ++ (k, v) :: rest := by simp
    have hSk : Shaped k := (hg.1 (k, v) hmemk).1
    have hSv : Shaped v := (hg.1 (k, v) hmemk).2
    have hR : ∀ kv ∈ done, Shaped kv.1 ∧ Shaped kv.2 ∧ kv.1 ≠ k ∧ kv.2 ≠ k := by
      intro kv' hkv'
      have hmem : kv' ∈ done ++ (k, v) :: rest := by simp [hkv']
      refine ⟨(hg.1 kv' hmem).1, (hg.1 kv' hmem).2, ?_, ?_⟩
      · have hnd := hg.2.1
        rw [List.map_append, List.nodup_append] at hnd
        have hdisj := hnd.2.2
        intro heq
        exact hdisj (List.mem_map_of_mem Prod.fst hkv') (by simp [← heq])
      · intro heq
        exact hg.2.2 (k, v) hmemk kv' hmem heq.symm
    have hpass := sim_pass hSk hSv hR u.length t u le_rfl h
    have hres := ih (done ++ [(k, v)]) (by simpa using hg) t _ hpass
    have hfold : foldPasses u ((k, v) :: rest) = foldPasses (replaceAll u k v) rest := rfl
    rw [hfold]
    refine hres.memIff ?_
    intro kv
    simp

theorem sim_foldPasses {pairs : List (Text × Text)} (hg : GoodPairs pairs) (t : Text) :
    Sim pairs t (foldPasses t pairs) := by
  have h := sim_foldPasses_aux pairs [] (by simpa using hg) t t (sim_empty t)
  simpa using h

/-- Simultaneous substitution is deterministic: two simulations of the same
input over the same pair set produce the same output. -/
theorem sim_unique {R : List (Text × Text)}
    (hkeys : ∀ kv ∈ R, Shaped kv.1)
    (hfun : ∀ kv ∈ R, ∀ kv' ∈ R, kv.1 = kv'.1 → kv.2 = kv'.2) :
    ∀ {t u₁ u₂ : Text}, Sim R t u₁ → Sim R t u₂ → u₁ = u₂ := by
  intro t u₁ u₂ h1
  induction h1 generalizing u₂ with
  | nil =>
    intro h2
    exact (sim_nil_left_inv hkeys h2 rfl).symm
  | copy c t u hnc hsim ih =>
    intro h2
    obtain ⟨u₀, rfl, hs⟩ := sim_cons_inv hnc h2 rfl
    exact congrArg (c :: ·) (ih hs)
  | subst k v t u hm hsim ih =>
    intro h2
    obtain ⟨u₀, rfl, hs⟩ := sim_subst_inv hkeys hfun hm h2 rfl
    exact congrArg (v ++ ·) (ih hs)

/-! ## Pipeline facts: the download/encode loop -/

theorem processFonts_cache_frame (net : List (Text × List Nat)) :
    ∀ fonts st (p : Text), p ∉ fonts →
      lookupA (processFonts net fonts st).cache p = lookupA st.cache p := by
  intro fonts
  induction fonts with
  | nil => intro st p _; rfl
  | cons q rest ih =>
    intro st p hp
    have hpq : p ≠ q := fun h => hp (by simp [h])
    have hprest : p ∉ rest := fun h => hp (by simp [h])
    rw [processFonts]
    cases hdl : download_font st.cache net q with
    | none => exact ih _ p hprest
    | some res =>
      obtain ⟨d, cache', didFetch⟩ := res
      rw [ih _ p hprest]
      simp only
      unfold download_font at hdl
      cases hc : lookupA st.cache q with
      | some d0 =>
        rw [hc] at hdl
        injection hdl with hdl
        injection hdl with h1 hdl
        injection hdl with h2 h3
        rw [← h2]
      | none =>
        rw [hc] at hdl
        cases hn : lookupA net q with
        | some d0 =>
          rw [hn] at hdl
          injection hdl with hdl
          injection hdl with h1 hdl
          injection hdl with h2 h3
          rw [← h2]
          simp [lookupA, Ne.symm hpq]
        | none =>
          rw [hn] at hdl
          exact absurd hdl (by simp)

theorem processFonts_failed_mono (net : List (Text × List Nat)) :
    ∀ fonts st x, x ∈ st.failed → x ∈ (processFonts net fonts st).failed := by
  intro fonts
  induction fonts with
  | nil => intro st x h; exact h
  | cons q rest ih =>
    intro st x h
    rw [processFonts]
    cases hdl : download_font st.cache net q with
    | none => exact ih _ x (by simp [h])
    | some res =>
      obtain ⟨d, cache', didFetch⟩ := res
      exact ih _ x h

theorem processFonts_reps_mono (net : List (Text × List Nat)) :
    ∀ fonts st x, x ∈ st.replacements → x ∈ (processFonts net fonts st).replacements := by
  intro fonts
  induction fonts with
  | nil => intro st x h; exact h
  | cons q rest ih =>
    intro st x h
    rw [processFonts]
    cases hdl : download_font st.cache net q with
    | none => exact ih _ x h
    | some res =>
      obtain ⟨d, cache', didFetch⟩ := res
      exact ih _ x (by simp [h])

/-- The successful entries appended by the loop: their keys form a sublist of
the processed font list, and every value is the data URI of the classifier's
MIME for the path and some downloaded bytes. -/
theorem processFonts_reps_spec (net : List (Text × List Nat)) :
    ∀ fonts st, ∃ added,
      (processFonts net fonts st).replacements = st.replacements ++ added ∧
      (added.map Prod.fst).Sublist fonts ∧
      ∀ pd ∈ added, ∃ bytes, pd.2 = make_data_uri (get_mime_type pd.1) bytes := by
  intro fonts
  induction fonts with
  | nil =>
    intro st
    exact ⟨[], by simp [processFonts], by simp, by simp⟩
  | cons q rest ih =>
    intro st
    rw [processFonts]
    cases hdl : download_font st.cache net q with
    | none =>
      obtain ⟨added, h1, h2, h3⟩ := ih { st with failed := st.failed ++ [q] }
      exact ⟨added, h1, h2.cons q, h3⟩
    | some res =>
      obtain ⟨d, cache', didFetch⟩ := res
      obtain ⟨added, h1, h2, h3⟩ := ih
        { cache := cache'
          fetched := if didFetch then st.fetched ++ [q] else st.fetched
          replacements := st.replacements ++ [(q, make_data_uri (get_mime_type q) d)]
          failed := st.failed }
      refine ⟨(q, make_data_uri (get_mime_type q) d) :: added, ?_, ?_, ?_⟩
      · rw [h1]
        simp
      · simpa using h2.cons₂ q
      · intro pd hpd
        rcases List.mem_cons.mp hpd with rfl | hpd
        · exact ⟨d, rfl⟩
        · exact h3 pd hpd

/-- A reference that is locally and remotely unavailable is recorded as failed
and never enters the replacement mapping. -/
theorem processFonts_failure (net : List (Text × List Nat)) :
    ∀ fonts st f, fonts.Nodup → f ∈ fonts →
      lookupA st.cache f = none → lookupA net f = none →
      f ∉ st.replacements.map Prod.fst →
      f ∈ (processFonts net fonts st).failed ∧
        f ∉ (processFonts net fonts st).replacements.map Prod.fst := by
  intro fonts
  induction fonts with
  | nil => intro st f _ h; simp at h
  | cons q rest ih =>
    intro st f hnd hf hcache hnet hkeys
    have hndr : rest.Nodup := (List.nodup_cons.mp hnd).2
    rcases List.mem_cons.mp hf with rfl | hfrest
    · -- the failing reference is processed now
      rw [processFonts]
      rw [download_font, hcache, hnet]
      have hnotin : f ∉ rest := (List.nodup_cons.mp hnd).1
      constructor
      · exact processFonts_failed_mono net rest _ f (by simp)
      · intro hmem
        obtain ⟨added, h1, h2, _⟩ :=
          processFonts_reps_spec net rest { st with failed := st.failed ++ [f] }
        rw [h1] at hmem
        simp only [List.map_append, List.mem_append] at hmem
        rcases hmem with hmem | hmem
        · exact hkeys hmem
        · exact hnotin (h2.mem hmem)
    · -- the failing reference comes later
      have hqf : q ≠ f := by
        rintro rfl
        exact (List.nodup_cons.mp hnd).1 hfrest
      rw [processFonts]
      cases hdl : download_font st.cache net q with
      | none =>
        exact ih _ f hndr hfrest hcache hnet hkeys
      | some res =>
        obtain ⟨d, cache', didFetch⟩ := res
        have hcache' : lookupA cache' f = none := by
          unfold download_font at hdl
          cases hc : lookupA st.cache q with
          | some d0 =>
            rw [hc] at hdl
            injection hdl with hdl
            injection hdl with h1 hdl
            injection hdl with h2 h3
            rw [← h2]
            exact hcache
          | none =>
            rw [hc] at hdl
            cases hn : lookupA net q with
            | some d0 =>
              rw [hn] at hdl
              injection hdl with hdl
              injection hdl with h1 hdl
              injection hdl with h2 h3
              rw [← h2]
              simpa [lookupA, hqf] using hcache
            | none =>
              rw [hn] at hdl
              exact absurd hdl (by simp)
        refine ih _ f hndr hfrest hcache' hnet ?_
        intro hmem
        simp only [List.map_append, List.mem_append] at hmem
        rcases hmem with hmem | hmem
        · exact hkeys hmem
        · simp at hmem
          exact hqf hmem.symm

/-- An available reference always enters the replacement mapping. -/
theorem processFonts_success (net : List (Text × List Nat)) :
    ∀ fonts st g, fonts.Nodup → g ∈ fonts →
      ((lookupA st.cache g).isSome ∨ (lookupA net g).isSome) →
      g ∈ (processFonts net fonts st).replacements.map Prod.fst := by
  intro fonts
  induction fonts with
  | nil => intro st g _ h; simp at h
  | cons q rest ih =>
    intro st g hnd hg havail
    have hndr : rest.Nodup := (List.nodup_cons.mp hnd).2
    rcases List.mem_cons.mp hg with rfl | hgrest
    · rw [processFonts]
      unfold download_font
      cases hc : lookupA st.cache g with
      | some d0 =>
        have := processFonts_reps_mono net rest
          { cache := st.cache
            fetched := st.fetched
            replacements := st.replacements ++ [(g, make_data_uri (get_mime_type g) d0)]
            failed := st.failed } (g, make_data_uri (get_mime_type g) d0) (by simp)
        exact List.mem_map_of_mem Prod.fst this
      | none =>
        cases hn : lookupA net g with
        | some d0 =>
          have := processFonts_reps_mono net rest
            { cache := (g, d0) :: st.cache
              fetched := st.fetched ++ [g]
              replacements := st.replacements ++ [(g, make_data_uri (get_mime_type g) d0)]
              failed := st.failed } (g, make_data_uri (get_mime_type g) d0) (by simp)
          exact List.mem_map_of_mem Prod.fst this
        | none =>
          rw [hc, hn] at havail
          simp at havail
    · have hqg : q ≠ g := by
        rintro rfl
        exact (List.nodup_cons.mp hnd).1 hgrest
      rw [processFonts]
      cases hdl : download_font st.cache net q with
      | none => exact ih _ g hndr hgrest havail
      | some res =>
        obtain ⟨d, cache', didFetch⟩ := res
        refine ih _ g hndr hgrest ?_
        rcases havail with havail | havail
        · left
          unfold download_font at hdl
          cases hc : lookupA st.cache q with
          | some d0 =>
            rw [hc] at hdl
            injection hdl with hdl
            injection hdl with h1 hdl
            injection hdl with h2 h3
            rw [← h2]
            exact havail
          | none =>
            rw [hc] at hdl
            cases hn : lookupA net q with
            | some d0 =>
              rw [hn] at hdl
              injection hdl with hdl
              injection hdl with h1 hdl
              injection hdl with h2 h3
              rw [← h2]
              simpa [lookupA, hqg] using havail
            | none =>
              rw [hn] at hdl
              exact absurd hdl (by simp)
        · right
          exact havail

/-! ## Well-formedness of the pipeline's replacement pairs -/

/-- A discovered path with the extra hypothesis that it contains no opening
parenthesis (the regex already rules out `)` and quotes, but not `(`). -/
def PathOk (p : Text) : Prop :=
  Leads fontsLit p ∧ ∀ c ∈ p, c ≠ '(' ∧ c ≠ ')' ∧ c ≠ dquote ∧ c ≠ squote

/-- A data URI: starts with `d` and contains no parenthesis or quote. -/
def UriOk (d : Text) : Prop :=
  Leads ['d'] d ∧ ∀ c ∈ d, c ≠ '(' ∧ c ≠ ')' ∧ c ≠ dquote ∧ c ≠ squote

/-- The three textual forms of a middle string. -/
def formsOf (m : Text) : List Text := [uform m, qform dquote m, qform squote m]

theorem pathOk_of_capture {p : Text} (hcap : CaptureShape p)
    (hparen : ∀ c ∈ p, c ≠ '(') : PathOk p := by
  obtain ⟨hlead, _, hchars⟩ := captureShape_facts hcap
  exact ⟨hlead, fun c hc =>
    ⟨hparen c hc, (hchars c hc).1, (hchars c hc).2.1, (hchars c hc).2.2⟩⟩

theorem b64char_plain_all (v : Nat) :
    b64char v ≠ '(' ∧ b64char v ≠ ')' ∧ b64char v ≠ dquote ∧ b64char v ≠ squote := by
  by_cases h : v < 64
  · exact b64char_plain v h
  · unfold b64char
    rw [List.getD_eq_default]
    · decide
    · have : b64Alphabet.length = 64 := by decide
      omega

theorem b64encode_plain :
    ∀ B : List Nat, ∀ c ∈ b64encode B,
      c ≠ '(' ∧ c ≠ ')' ∧ c ≠ dquote ∧ c ≠ squote := by
  intro B
  induction B using b64encode.induct with
  | case1 => intro c hc; simp [b64encode] at hc
  | case2 b1 =>
    intro c hc
    simp only [b64encode, List.mem_cons] at hc
    rcases hc with rfl | rfl | rfl | rfl | hc
    · exact b64char_plain_all _
    · exact b64char_plain_all _
    · decide
    · decide
    · simp at hc
  | case3 b1 b2 =>
    intro c hc
    simp only [b64encode, List.mem_cons] at hc
    rcases hc with rfl | rfl | rfl | rfl | hc
    · exact b64char_plain_all _
    · exact b64char_plain_all _
    · exact b64char_plain_all _
    · decide
    · simp at hc
  | case4 b1 b2 b3 rest ih =>
    intro c hc
    simp only [b64encode, List.mem_cons] at hc
    rcases hc with rfl | rfl | rfl | rfl | hc
    · exact b64char_plain_all _
    · exact b64char_plain_all _
    · exact b64char_plain_all _
    · exact b64char_plain_all _
    · exact ih c hc

theorem dataLit_plain :
    ∀ c ∈ "data:".toList, c ≠ '(' ∧ c ≠ ')' ∧ c ≠ dquote ∧ c ≠ squote := by decide

theorem b64Lit_plain :
    ∀ c ∈ ";base64,".toList, c ≠ '(' ∧ c ≠ ')' ∧ c ≠ dquote ∧ c ≠ squote := by decide

theorem uriOk_make_data_uri (p : Text) (bytes : List Nat) :
    UriOk (make_data_uri (get_mime_type p) bytes) := by
  constructor
  · exact ⟨"ata:".toList ++ (get_mime_type p ++ (";base64,".toList ++ b64encode bytes)), by
      simp [make_data_uri]⟩
  · intro c hc
    unfold make_data_uri at hc
    rcases List.mem_append.mp hc with hc | hc
    · rcases List.mem_append.mp hc with hc | hc
      · rcases List.mem_append.mp hc with hc | hc
        · exact dataLit_plain c hc
        · exact get_mime_type_plain p c hc
      · exact b64Lit_plain c hc
    · exact b64encode_plain bytes c hc

theorem uform_inj {m m' : Text} (h : uform m = uform m') : m = m' := by
  simp only [uform, List.cons.injEq, true_and] at h
  exact List.append_left_injective [')'] h

theorem qform_q_eq {q q' : Char} {m m' : Text} (h : qform q m = qform q' m') : q = q' := by
  simp only [qform, List.cons.injEq, true_and] at h
  exact h.1

theorem qform_inj {q : Char} {m m' : Text} (h : qform q m = qform q m') : m = m' := by
  simp only [qform, List.cons.injEq, true_and] at h
  exact List.append_left_injective [q, ')'] h

theorem uform_ne_qform {m m' : Text} {q : Char} (hq : q = dquote ∨ q = squote)
    (hm : ∀ c ∈ m, c ≠ dquote ∧ c ≠ squote) :
    uform m ≠ qform q m' := by
  intro h
  simp only [uform, qform] at h
  injection h with _ h
  injection h with _ h
  injection h with _ h
  injection h with _ h
  cases m with
  | nil =>
    injection h with h1 h2
    exact absurd h2.symm (by simp)
  | cons x xs =>
    injection h with h1 _
    rcases hq with rfl | rfl
    · exact (hm x (by simp)).1 h1
    · exact (hm x (by simp)).2 h1

theorem pathOk_head {p : Text} (hp : PathOk p) : ∃ r, p = 'f' :: r := by
  obtain ⟨⟨r, rfl⟩, _⟩ := hp
  exact ⟨_, rfl⟩

theorem pathOk_quote_free {p : Text} (hp : PathOk p) :
    ∀ c ∈ p, c ≠ dquote ∧ c ≠ squote :=
  fun c hc => ⟨(hp.2 c hc).2.2.1, (hp.2 c hc).2.2.2⟩

theorem uriOk_quote_free {d : Text} (hd : UriOk d) :
    ∀ c ∈ d, c ≠ dquote ∧ c ≠ squote :=
  fun c hc => ⟨(hd.2 c hc).2.2.1, (hd.2 c hc).2.2.2⟩

/-- Forms of path-like middles are injective in the middle. -/
theorem form_eq_path {x p p' : Text} (hp : PathOk p) (hp' : PathOk p')
    (hx : x ∈ formsOf p) (hx' : x ∈ formsOf p') : p = p' := by
  simp only [formsOf, List.mem_cons, List.mem_singleton, List.not_mem_nil, or_false] at hx hx'
  rcases hx with rfl | rfl | rfl <;> rcases hx' with h | h | h
  · exact uform_inj h
  · exact absurd h (uform_ne_qform (Or.inl rfl) (pathOk_quote_free hp))
  · exact absurd h (uform_ne_qform (Or.inr rfl) (pathOk_quote_free hp))
  · exact absurd h.symm (uform_ne_qform (Or.inl rfl) (pathOk_quote_free hp'))
  · exact qform_inj h
  · exact absurd (qform_q_eq h) (by decide)
  · exact absurd h.symm (uform_ne_qform (Or.inr rfl) (pathOk_quote_free hp'))
  · exact absurd (qform_q_eq h) (by decide)
  · exact qform_inj h

/-- No form of an ok path coincides with a form of an ok data URI: the first
character after `url(` and the optional quote differs (`f` vs `d`). -/
theorem form_path_ne_uri {x y p d : Text} (hp : PathOk p) (hd : UriOk d)
    (hx : x ∈ formsOf p) (hy : y ∈ formsOf d) : x ≠ y := by
  intro hxy
  subst hxy
  simp only [formsOf, List.mem_cons, List.mem_singleton, List.not_mem_nil, or_false] at hx hy
  obtain ⟨rp, hrp⟩ := pathOk_head hp
  obtain ⟨rd, hrd⟩ := hd.1
  have hne : p ≠ d := by
    rw [hrp, hrd]
    intro h
    injection h with h1 _
    exact absurd h1 (by decide)
  rcases hx with rfl | rfl | rfl <;> rcases hy with h | h | h
  · exact hne (uform_inj h)
  · exact absurd h (uform_ne_qform (Or.inl rfl) (pathOk_quote_free hp))
  · exact absurd h (uform_ne_qform (Or.inr rfl) (pathOk_quote_free hp))
  · exact absurd h.symm (uform_ne_qform (Or.inl rfl) (uriOk_quote_free hd))
  · exact hne (qform_inj h)
  · exact absurd (qform_q_eq h) (by decide)
  · exact absurd h.symm (uform_ne_qform (Or.inr rfl) (uriOk_quote_free hd))
  · exact absurd (qform_q_eq h) (by decide)
  · exact hne (qform_inj h)

theorem formsOf_nodup {p : Text} (hp : PathOk p) : (formsOf p).Nodup := by
  simp only [formsOf]
  refine List.Nodup.cons ?_ (List.Nodup.cons ?_ (List.nodup_singleton _))
  · intro h
    simp only [List.mem_cons, List.mem_singleton, List.not_mem_nil, or_false] at h
    rcases h with h | h
    · exact uform_ne_qform (Or.inl rfl) (pathOk_quote_free hp) h
    · exact uform_ne_qform (Or.inr rfl) (pathOk_quote_free hp) h
  · intro h
    simp only [List.mem_singleton] at h
    exact absurd (qform_q_eq h) (by decide)

theorem mem_pairsOf {kv : Text × Text} {reps : List (Text × Text)} :
    kv ∈ pairsOf reps ↔ ∃ pd ∈ reps,
      kv = (uform pd.1, uform pd.2) ∨ kv = (qform dquote pd.1, qform dquote pd.2) ∨
      kv = (qform squote pd.1, qform squote pd.2) := by
  simp only [pairsOf, List.mem_flatMap, List.mem_cons, List.mem_singleton,
    List.not_mem_nil, or_false]

theorem pairsOf_map_fst (reps : List (Text × Text)) :
    (pairsOf reps).map Prod.fst = reps.flatMap (fun pd => formsOf pd.1) := by
  induction reps with
  | nil => rfl
  | cons pd rest ih =>
    simp only [pairsOf, formsOf, List.flatMap_cons, List.map_append] at ih ⊢
    rw [ih]
    rfl

theorem pairsOf_fst_ne_nil {reps : List (Text × Text)} :
    ∀ kv ∈ pairsOf reps, kv.1 ≠ [] := by
  intro kv hkv
  obtain ⟨pd, _, hcase⟩ := mem_pairsOf.mp hkv
  rcases hcase with rfl | rfl | rfl <;> simp [uform, qform]

theorem shaped_uform_of {m : Text} (h : ∀ c ∈ m, c ≠ '(' ∧ c ≠ ')') :
    Shaped (uform m) := ⟨m, rfl, h⟩

theorem shaped_qform_of {q : Char} (hq : q ≠ '(' ∧ q ≠ ')') {m : Text}
    (h : ∀ c ∈ m, c ≠ '(' ∧ c ≠ ')') : Shaped (qform q m) := by
  rw [qform_eq_uform]
  refine ⟨_, rfl, ?_⟩
  intro c hc
  rcases List.mem_cons.mp hc with rfl | hc
  · exact hq
  · rcases List.mem_append.mp hc with hc | hc
    · exact h c hc
    · simp only [List.mem_singleton] at hc
      subst hc
      exact hq

theorem nodup_flatMap_forms :
    ∀ (reps : List (Text × Text)), (∀ pd ∈ reps, PathOk pd.1) →
      (reps.map Prod.fst).Nodup →
      (reps.flatMap (fun pd => formsOf pd.1)).Nodup := by
  intro reps
  induction reps with
  | nil => intro _ _; simp
  | cons pd rest ih =>
    intro hok hnd
    rw [List.flatMap_cons, List.nodup_append]
    rw [List.map_cons, List.nodup_cons] at hnd
    refine ⟨formsOf_nodup (hok pd (by simp)), ih (fun x hx => hok x (by simp [hx])) hnd.2, ?_⟩
    intro x hx hx'
    obtain ⟨pd', hpd', hx''⟩ := List.mem_flatMap.mp hx'
    have heq : pd.1 = pd'.1 :=
      form_eq_path (hok pd (by simp)) (hok pd' (by simp [hpd'])) hx hx''
    exact hnd.1 (by rw [heq]; exact List.mem_map_of_mem Prod.fst hpd')

/-- The flattened pass list of well-formed replacement entries is good. -/
theorem goodPairs_pairsOf {reps : List (Text × Text)}
    (hok : ∀ pd ∈ reps, PathOk pd.1 ∧ UriOk pd.2)
    (hnd : (reps.map Prod.fst).Nodup) : GoodPairs (pairsOf reps) := by
  refine ⟨?_, ?_, ?_⟩
  · intro kv hkv
    obtain ⟨pd, hpd, hcase⟩ := mem_pairsOf.mp hkv
    obtain ⟨hp, hd⟩ := hok pd hpd
    have hpch : ∀ c ∈ pd.1, c ≠ '(' ∧ c ≠ ')' :=
      fun c hc => ⟨(hp.2 c hc).1, (hp.2 c hc).2.1⟩
    have hdch : ∀ c ∈ pd.2, c ≠ '(' ∧ c ≠ ')' :=
      fun c hc => ⟨(hd.2 c hc).1, (hd.2 c hc).2.1⟩
    rcases hcase with rfl | rfl | rfl
    · exact ⟨shaped_uform_of hpch, shaped_uform_of hdch⟩
    · exact ⟨shaped_qform_of (by decide) hpch, shaped_qform_of (by decide) hdch⟩
    · exact ⟨shaped_qform_of (by decide) hpch, shaped_qform_of (by decide) hdch⟩
  · rw [pairsOf_map_fst]
    exact nodup_flatMap_forms reps (fun pd hpd => (hok pd hpd).1) hnd
  · intro kv hkv kv' hkv'
    obtain ⟨pd, hpd, hcase⟩ := mem_pairsOf.mp hkv
    obtain ⟨pd', hpd', hcase'⟩ := mem_pairsOf.mp hkv'
    have hx : kv.1 ∈ formsOf pd.1 := by
      rcases hcase with rfl | rfl | rfl <;> simp [formsOf]
    have hy : kv'.2 ∈ formsOf pd'.2 := by
      rcases hcase' with rfl | rfl | rfl <;> simp [formsOf]
    exact form_path_ne_uri (hok pd hpd).1 (hok pd' hpd').2 hx hy

/-! ## Bundle-level consequences -/

theorem bundle_none {env : Env} (h : env.inputCss = none) :
    bundle env =
      { output := none, cache := env.cache, fetched := [], replacements := [], failed := [] } := by
  unfold bundle
  rw [h]

theorem bundle_some {env : Env} {css : Text} (h : env.inputCss = some css) :
    bundle env =
      { output := some (applyReplacements css
          (processFonts env.net (discoverRefs css)
            { cache := env.cache, fetched := [], replacements := [], failed := [] }).replacements)
        cache := (processFonts env.net (discoverRefs css)
          { cache := env.cache, fetched := [], replacements := [], failed := [] }).cache
        fetched := (processFonts env.net (discoverRefs css)
          { cache := env.cache, fetched := [], replacements := [], failed := [] }).fetched
        replacements := (processFonts env.net (discoverRefs css)
          { cache := env.cache, fetched := [], replacements := [], failed := [] }).replacements
        failed := (processFonts env.net (discoverRefs css)
          { cache := env.cache, fetched := [], replacements := [], failed := [] }).failed } := by
  unfold bundle
  rw [h]

theorem bundle_output_eq {env : Env} {css : Text} (h : env.inputCss = some css) :
    (bundle env).output = some (applyReplacements css (bundle env).replacements) := by
  rw [bundle_some h]

theorem bundle_reps_spec {env : Env} {css : Text} (h : env.inputCss = some css) :
    (((bundle env).replacements.map Prod.fst).Sublist (discoverRefs css)) ∧
    ∀ pd ∈ (bundle env).replacements, ∃ bytes, pd.2 = make_data_uri (get_mime_type pd.1) bytes := by
  obtain ⟨added, h1, h2, h3⟩ := processFonts_reps_spec env.net (discoverRefs css)
    { cache := env.cache, fetched := [], replacements := [], failed := [] }
  rw [bundle_some h]
  simp only
  rw [h1]
  simp only [List.nil_append]
  exact ⟨h2, h3⟩

theorem bundle_keys_nodup {env : Env} {css : Text} (h : env.inputCss = some css) :
    ((bundle env).replacements.map Prod.fst).Nodup :=
  ((bundle_reps_spec h).1).nodup (sortDedup_nodup _)

theorem bundle_paths_discovered {env : Env} {css : Text} (h : env.inputCss = some css) :
    ∀ pd ∈ (bundle env).replacements, pd.1 ∈ discoverRefs css := by
  intro pd hpd
  exact ((bundle_reps_spec h).1).mem (List.mem_map_of_mem Prod.fst hpd)

theorem bundle_reps_ok {env : Env} {css : Text} (h : env.inputCss = some css)
    (hnp : ∀ p ∈ discoverRefs css, ∀ c ∈ p, c ≠ '(') :
    ∀ pd ∈ (bundle env).replacements, PathOk pd.1 ∧ UriOk pd.2 := by
  intro pd hpd
  have hdisc := bundle_paths_discovered h pd hpd
  constructor
  · exact pathOk_of_capture (discoverRefs_capture hdisc) (hnp pd.1 hdisc)
  · obtain ⟨bytes, hb⟩ := (bundle_reps_spec h).2 pd hpd
    rw [hb]
    exact uriOk_make_data_uri pd.1 bytes

theorem bundle_goodPairs {env : Env} {css : Text} (h : env.inputCss = some css)
    (hnp : ∀ p ∈ discoverRefs css, ∀ c ∈ p, c ≠ '(') :
    GoodPairs (pairsOf (bundle env).replacements) :=
  goodPairs_pairsOf (bundle_reps_ok h hnp) (bundle_keys_nodup h)

/-- The central positive result: with every discovered path free of `(`,
the written output is the simultaneous, complete substitution of the
replacement mapping's six textual forms in the input stylesheet. -/
theorem bundle_sim {env : Env} {css : Text} (h : env.inputCss = some css)
    (hnp : ∀ p ∈ discoverRefs css, ∀ c ∈ p, c ≠ '(') :
    Sim (pairsOf (bundle env).replacements) css ((bundle env).output.getD []) := by
  rw [bundle_output_eq h]
  exact sim_foldPasses (bundle_goodPairs h hnp) css

theorem nodup_key_fun {l : List (Text × Text)} (h : (l.map Prod.fst).Nodup) :
    ∀ kv ∈ l, ∀ kv' ∈ l, kv.1 = kv'.1 → kv.2 = kv'.2 := by
  induction l with
  | nil => intro kv hkv; simp at hkv
  | cons x rest ih =>
    rw [List.map_cons, List.nodup_cons] at h
    intro kv hkv kv' hkv' heq
    rcases List.mem_cons.mp hkv with h1 | h1 <;>
      rcases List.mem_cons.mp hkv' with h2 | h2
    · rw [h1, h2]
    · exfalso
      apply h.1
      rw [h1] at heq
      rw [heq]
      exact List.mem_map_of_mem Prod.fst h2
    · exfalso
      apply h.1
      rw [h2] at heq
      rw [← heq]
      exact List.mem_map_of_mem Prod.fst h1
    · exact ih h.2 kv h1 kv' h2 heq

/-- Permuting the replacement entries permutes and preserves the pass pairs. -/
theorem pairsOf_mem_of_perm {reps reps' : List (Text × Text)} (hperm : reps'.Perm reps) :
    ∀ kv, kv ∈ pairsOf reps' ↔ kv ∈ pairsOf reps := by
  intro kv
  rw [mem_pairsOf, mem_pairsOf]
  constructor
  · rintro ⟨pd, hpd, hc⟩
    exact ⟨pd, hperm.mem_iff.mp hpd, hc⟩
  · rintro ⟨pd, hpd, hc⟩
    exact ⟨pd, hperm.mem_iff.mpr hpd, hc⟩

theorem goodPairs_of_perm {reps reps' : List (Text × Text)}
    (hperm : reps'.Perm reps) (hnd : (reps.map Prod.fst).Nodup)
    (hok : ∀ pd ∈ reps, PathOk pd.1 ∧ UriOk pd.2) : GoodPairs (pairsOf reps') := by
  refine goodPairs_pairsOf ?_ ?_
  · intro pd hpd
    exact hok pd (hperm.mem_iff.mp hpd)
  · exact ((hperm.map Prod.fst).nodup_iff).mpr hnd

/-! ## Claims -/

/-- Claim C2: for every stylesheet text, discovery returns exactly the
lexicographically sorted sequence of distinct paths starting with `fonts/`
that occur inside `url(...)` tokens (the captures of the source regex, in
scan order, given by `findall`), duplicates collapsed; a text with no
matching token yields the empty sequence and is not an error. -/
theorem claim_C2 (css : Text) :
    (discoverRefs css).Pairwise (fun a b => lexLt a b = true) ∧
    (discoverRefs css).Nodup ∧
    (∀ p, p ∈ discoverRefs css ↔ p ∈ findall css) ∧
    (∀ p ∈ discoverRefs css, Leads fontsLit p) ∧
    (findall css = [] → discoverRefs css = []) := by
  refine ⟨sortDedup_pairwise _, sortDedup_nodup _, fun p => mem_sortDedup _ _, ?_, ?_⟩
  · intro p hp
    exact (captureShape_facts (discoverRefs_capture hp)).1
  · intro h
    unfold discoverRefs
    rw [h]
    rfl

theorem claim_C2_witness :
    "fonts/a.woff2".toList ∈
      findall "url(fonts/b.woff) url(fonts/a.woff2) url(fonts/b.woff)".toList :=
  ((claim_C2 "url(fonts/b.woff) url(fonts/a.woff2) url(fonts/b.woff)".toList).2.2.1
    "fonts/a.woff2".toList).mp (by decide)

/-- Modelled from the spec (§4.1, classify MIME type): the fixed table from
lowercased extension to MIME string, defaulting to the generic binary type. -/
def spec_mime_table (ext : Text) : Text :=
  if ext = ".woff2".toList then "font/woff2".toList
  else if ext = ".woff".toList then "font/woff".toList
  else if ext = ".ttf".toList then "font/ttf".toList
  else if ext = ".eot".toList then "application/vnd.ms-fontembedded-opentype".toList
  else "application/octet-stream".toList

/-- Claim C7: the classifier is a total pure function of the lowercased file
extension, agreeing with the spec's table (`font/woff2`, `font/woff`,
`font/ttf`, `application/vnd.ms-fontembedded-opentype`, and
`application/octet-stream` for every other extension); being a Lean function
it raises nothing on any input. -/
theorem claim_C7 (p : Text) :
    get_mime_type p = spec_mime_table ((extOf p).map Char.toLower) ∧
    ∀ q : Text, (extOf p).map Char.toLower = (extOf q).map Char.toLower →
      get_mime_type p = get_mime_type q :=
  ⟨rfl, fun _ h => get_mime_type_congr h⟩

theorem claim_C7_witness :
    get_mime_type "a/b.WOFF2".toList = get_mime_type "c.woff2".toList ∧
    get_mime_type "c.woff2".toList = "font/woff2".toList :=
  ⟨(claim_C7 "a/b.WOFF2".toList).2 "c.woff2".toList (by decide), by decide⟩

theorem dataLit_ascii : ∀ c ∈ "data:".toList, c.toNat < 128 := by decide

theorem b64Lit_ascii : ∀ c ∈ ";base64,".toList, c.toNat < 128 := by decide

/-- Claim C3: for every byte list `B` and MIME string `m`, the encoder
produces exactly `data:<m>;base64,<p>` with `p` the standard padded base64 of
`B`; decoding `p` yields `B`; the base64 payload, and the whole URI when the
MIME comes from the classifier, are pure ASCII; and in the pipeline the MIME
segment of every produced data URI is the classifier's output for the asset's
path. -/
theorem claim_C3 (B : List Nat) (m : Text) (hB : ∀ b ∈ B, b < 256) :
    make_data_uri m B = "data:".toList ++ m ++ ";base64,".toList ++ b64encode B ∧
    b64decode (b64encode B) = some B ∧
    (∀ c ∈ b64encode B, c.toNat < 128) ∧
    (∀ p : Text, ∀ c ∈ make_data_uri (get_mime_type p) B, c.toNat < 128) ∧
    (∀ (env : Env) (css : Text), env.inputCss = some css →
      ∀ pd ∈ (bundle env).replacements,
        ∃ bytes, pd.2 = make_data_uri (get_mime_type pd.1) bytes) := by
  refine ⟨rfl, b64_roundtrip B hB, b64encode_ascii hB, ?_, ?_⟩
  · intro p c hc
    unfold make_data_uri at hc
    rcases List.mem_append.mp hc with hc | hc
    · rcases List.mem_append.mp hc with hc | hc
      · rcases List.mem_append.mp hc with hc | hc
        · exact dataLit_ascii c hc
        · exact get_mime_type_ascii p c hc
      · exact b64Lit_ascii c hc
    · exact b64encode_ascii hB c hc
  · intro env css h pd hpd
    exact (bundle_reps_spec h).2 pd hpd

theorem claim_C3_witness :
    b64decode (b64encode [0, 1, 255]) = some [0, 1, 255] :=
  (claim_C3 [0, 1, 255] "font/woff2".toList (by decide)).2.1

/-- Claim C6: cache precedence and persistence: a cache hit returns exactly
the on-disk bytes with no fetch and no cache change; a miss fetches the bytes,
persists exactly them at the reference's path, and returns them, so the cache
afterwards holds exactly the returned bytes; a double miss is the raised
error. -/
theorem claim_C6 (cache net : List (Text × List Nat)) (p : Text) :
    (∀ d, lookupA cache p = some d → download_font cache net p = some (d, cache, false)) ∧
    (lookupA cache p = none → ∀ d, lookupA net p = some d →
      download_font cache net p = some (d, (p, d) :: cache, true) ∧
        lookupA ((p, d) :: cache) p = some d) ∧
    (lookupA cache p = none → lookupA net p = none → download_font cache net p = none) := by
  refine ⟨?_, ?_, ?_⟩
  · intro d h
    unfold download_font
    rw [h]
  · intro h d hn
    unfold download_font
    rw [h, hn]
    exact ⟨rfl, by simp [lookupA]⟩
  · intro h hn
    unfold download_font
    rw [h, hn]

theorem claim_C6_witness :
    download_font [("fonts/a".toList, [7])] [] "fonts/a".toList =
      some ([7], [("fonts/a".toList, [7])], false) :=
  (claim_C6 [("fonts/a".toList, [7])] [] "fonts/a".toList).1 [7] (by decide)

/-- Claim C8: when the input stylesheet file does not exist, the run
terminates after the diagnostic with no side effect: no output is written, the
cache is untouched, nothing is fetched, and no reference is processed. -/
theorem claim_C8 (env : Env) (h : env.inputCss = none) :
    (bundle env).output = none ∧ (bundle env).cache = env.cache ∧
    (bundle env).fetched = [] ∧ (bundle env).replacements = [] ∧
    (bundle env).failed = [] := by
  rw [bundle_none h]
  exact ⟨rfl, rfl, rfl, rfl, rfl⟩

theorem claim_C8_witness :
    (bundle { inputCss := none, cache := [("fonts/a".toList, [7])], net := [] }).output
        = none ∧
    (bundle { inputCss := none, cache := [("fonts/a".toList, [7])], net := [] }).cache
        = [("fonts/a".toList, [7])] :=
  ⟨(claim_C8 { inputCss := none, cache := [("fonts/a".toList, [7])], net := [] } rfl).1,
   (claim_C8 { inputCss := none, cache := [("fonts/a".toList, [7])], net := [] } rfl).2.1⟩

/-! Concrete data for claim C10: a mismatched-quote token. -/

def cssC10 : Text := "url(".toList ++ dquote :: "fonts/X.woff2)".toList

def envC10 : Env :=
  { inputCss := some cssC10, cache := [], net := [("fonts/X.woff2".toList, [0])] }

set_option maxRecDepth 1000000 in
/-- Claim C10: on the stylesheet `url("fonts/X.woff2)` (mismatched quoting)
the discovery regex extracts the path — the asset is fetched and encoded —
while substitution, which replaces only the three well-formed variants, leaves
the text byte-identical. -/
theorem claim_C10 :
    discoverRefs cssC10 = ["fonts/X.woff2".toList] ∧
    (bundle envC10).fetched = ["fonts/X.woff2".toList] ∧
    (bundle envC10).replacements.map Prod.fst = ["fonts/X.woff2".toList] ∧
    (bundle envC10).output = some cssC10 := by
  decide

/-! Concrete data for claim C1's counterexample: one discovered path contains
`url(` so the two references' token occurrences overlap in the stylesheet. -/

def cssC1ce : Text := "url(fonts/url(fonts/b.ttf)url(fonts/b.ttf)".toList

def envC1ce : Env :=
  { inputCss := some cssC1ce, cache := []
    net := [("fonts/url(fonts/b.ttf".toList, [1]), ("fonts/b.ttf".toList, [0])] }

set_option maxRecDepth 1000000 in
/-- Counterexample to claim C1 as stated: the reference `fonts/url(fonts/b.ttf`
is successfully encoded (its data URI ends in `AQ==`), and its unquoted form
occurs in the stylesheet, yet the output contains no occurrence at all of the
URI-wrapped form `url(data:font/ttf;base64,AQ==)`: the lexicographically
earlier reference's replacement pass destroyed the occurrence, so not every
occurrence of a mapped reference's form is replaced by its own data URI. -/
theorem claim_C1_counterexample :
    ("fonts/url(fonts/b.ttf".toList, "data:font/ttf;base64,AQ==".toList) ∈
      (bundle envC1ce).replacements ∧
    hasSub (uform "fonts/url(fonts/b.ttf".toList) cssC1ce = true ∧
    hasSub (uform "data:font/ttf;base64,AQ==".toList)
      ((bundle envC1ce).output.getD []) = false := by
  decide

/-- Claim C1 (amended): provided no discovered path contains `(`, the written
output is related to the input by the complete simultaneous substitution
relation `Sim` over the mapping's six textual forms: every occurrence of each
form of every mapped reference is replaced by the corresponding form wrapping
its data URI (a character may be copied only where no mapped form starts), and
every other character — in particular every occurrence of a reference not in
the mapping — is left byte-identical. -/
theorem claim_C1 (env : Env) (css : Text) (h : env.inputCss = some css)
    (hnp : ∀ p ∈ discoverRefs css, ∀ c ∈ p, c ≠ '(') :
    Sim (pairsOf (bundle env).replacements) css ((bundle env).output.getD []) :=
  bundle_sim h hnp

def cssC1w : Text :=
  "url(fonts/a.woff2) url(".toList ++ squote :: ("fonts/a.woff2".toList ++ [squote, ')'])

def envC1w : Env :=
  { inputCss := some cssC1w, cache := [], net := [("fonts/a.woff2".toList, [0])] }

set_option maxRecDepth 1000000 in
theorem claim_C1_witness :
    Sim (pairsOf (bundle envC1w).replacements) cssC1w ((bundle envC1w).output.getD []) :=
  claim_C1 envC1w cssC1w rfl (by decide)

/-! Concrete data for claim C4's counterexample: the failing reference's token
occurrence overlaps occurrences of two successful references, so it does not
stay byte-identical even though it is excluded from the mapping. -/

def pC4a : Text := "fonts/url(data:application/octet-stream;base64,".toList

def pC4b : Text := "fonts/url(fonts/b".toList

def pC4c : Text := "fonts/b".toList

def cssC4ce : Text := uform pC4a ++ uform pC4b ++ uform pC4c

def envC4ce : Env :=
  { inputCss := some cssC4ce, cache := [], net := [(pC4a, []), (pC4c, [])] }

set_option maxRecDepth 1000000 in
/-- Counterexample to claim C4 as stated: the reference `fonts/url(fonts/b`
fails (it is logged and excluded from the mapping), so by the claim its
`url(...)` occurrences should remain unchanged; yet its unquoted form occurs
in the input and occurs nowhere in the output — the other references'
replacement passes rewrote the region. -/
theorem claim_C4_counterexample :
    pC4b ∈ discoverRefs cssC4ce ∧
    pC4b ∈ (bundle envC4ce).failed ∧
    pC4b ∉ (bundle envC4ce).replacements.map Prod.fst ∧
    hasSub (uform pC4b) cssC4ce = true ∧
    hasSub (uform pC4b) ((bundle envC4ce).output.getD []) = false := by
  decide

/-- Claim C4 (amended): an error obtaining a reference is caught and recorded,
the reference is excluded from the replacement mapping, every other available
reference is still processed into the mapping, and the run completes normally,
writing the output file; moreover, provided no discovered path contains `(`,
the excluded reference's occurrences (like all unmapped text) are left
byte-identical, via the substitution relation `Sim`. -/
theorem claim_C4 (env : Env) (css f : Text) (h : env.inputCss = some css)
    (hf : f ∈ discoverRefs css) (hc : lookupA env.cache f = none)
    (hn : lookupA env.net f = none) :
    (bundle env).output = some (applyReplacements css (bundle env).replacements) ∧
    f ∈ (bundle env).failed ∧
    f ∉ (bundle env).replacements.map Prod.fst ∧
    (∀ g ∈ discoverRefs css,
      ((lookupA env.cache g).isSome ∨ (lookupA env.net g).isSome) →
      g ∈ (bundle env).replacements.map Prod.fst) ∧
    ((∀ p ∈ discoverRefs css, ∀ c ∈ p, c ≠ '(') →
      Sim (pairsOf (bundle env).replacements) css ((bundle env).output.getD [])) := by
  have hfail := processFonts_failure env.net (discoverRefs css)
    { cache := env.cache, fetched := [], replacements := [], failed := [] } f
    (sortDedup_nodup _) hf hc hn (by simp)
  refine ⟨bundle_output_eq h, ?_, ?_, ?_, fun hnp => bundle_sim h hnp⟩
  · rw [bundle_some h]
    exact hfail.1
  · rw [bundle_some h]
    exact hfail.2
  · intro g hg havail
    rw [bundle_some h]
    exact processFonts_success env.net _ _ g (sortDedup_nodup _) hg havail

def cssC4w : Text := "url(fonts/a.woff2) url(fonts/missing.woff)".toList

def envC4w : Env :=
  { inputCss := some cssC4w, cache := [], net := [("fonts/a.woff2".toList, [0])] }

set_option maxRecDepth 1000000 in
theorem claim_C4_witness :
    "fonts/missing.woff".toList ∈ (bundle envC4w).failed ∧
    "fonts/missing.woff".toList ∉ (bundle envC4w).replacements.map Prod.fst ∧
    "fonts/a.woff2".toList ∈ (bundle envC4w).replacements.map Prod.fst :=
  ⟨(claim_C4 envC4w cssC4w "fonts/missing.woff".toList rfl (by decide) (by decide)
      (by decide)).2.1,
   (claim_C4 envC4w cssC4w "fonts/missing.woff".toList rfl (by decide) (by decide)
      (by decide)).2.2.1,
   (claim_C4 envC4w cssC4w "fonts/missing.woff".toList rfl (by decide) (by decide)
      (by decide)).2.2.2.1 "fonts/a.woff2".toList (by decide) (by decide)⟩

/-! Concrete data for claim C5's counterexample (same phenomenon as C4's, with
its own data): characters outside every mapped token occurrence change. -/

def pC5a : Text := "fonts/url(data:application/octet-stream;base64,".toList

def pC5b : Text := "fonts/url(fonts/b".toList

def pC5c : Text := "fonts/b".toList

def cssC5ce : Text := uform pC5a ++ uform pC5b ++ uform pC5c

def envC5ce : Env :=
  { inputCss := some cssC5ce, cache := [], net := [(pC5a, []), (pC5c, [])] }

set_option maxRecDepth 1000000 in
/-- Counterexample to claim C5 as stated: the output of this run cannot be
obtained from the input by replacing occurrences of the mapping's token forms
(`Rewrites`, the frame relation): some characters outside every replaced
`url(...)` token occurrence differ from the input. -/
theorem claim_C5_counterexample :
    ¬ Rewrites (pairsOf (bundle envC5ce).replacements) cssC5ce
      ((bundle envC5ce).output.getD []) := by
  apply rwChk_refutes (fun kv hkv => pairsOf_fst_ne_nil kv hkv)
  decide

/-- Claim C5 (amended): provided no discovered path contains `(`, the output
is obtained from the input by replacing occurrences of the mapped references'
six textual forms with their data-URI counterparts and copying every other
character unchanged (`Rewrites`, the frame property). -/
theorem claim_C5 (env : Env) (css : Text) (h : env.inputCss = some css)
    (hnp : ∀ p ∈ discoverRefs css, ∀ c ∈ p, c ≠ '(') :
    Rewrites (pairsOf (bundle env).replacements) css ((bundle env).output.getD []) :=
  (bundle_sim h hnp).toRewrites

def cssC5w : Text :=
  "body url(fonts/c.ttf) url(".toList ++ dquote :: ("fonts/c.ttf".toList ++ [dquote, ')'])

def envC5w : Env :=
  { inputCss := some cssC5w, cache := [("fonts/c.ttf".toList, [2])], net := [] }

set_option maxRecDepth 1000000 in
theorem claim_C5_witness :
    Rewrites (pairsOf (bundle envC5w).replacements) cssC5w
      ((bundle envC5w).output.getD []) :=
  claim_C5 envC5w cssC5w rfl (by decide)

/-! Concrete data for claim C9's counterexample. -/

def cssC9ce : Text := "url(fonts/url(fonts/b.ttf)url(fonts/b.ttf)".toList

def envC9ce : Env :=
  { inputCss := some cssC9ce, cache := []
    net := [("fonts/url(fonts/b.ttf".toList, [1]), ("fonts/b.ttf".toList, [0])] }

set_option maxRecDepth 1000000 in
/-- Counterexample to claim C9 as stated: reversing the order of the
replacement entries — a permutation of the references — changes the output
text, so substitution is not order-independent on texts with overlapping
token occurrences. -/
theorem claim_C9_counterexample :
    ((bundle envC9ce).replacements.reverse).Perm ((bundle envC9ce).replacements) ∧
    applyReplacements cssC9ce (bundle envC9ce).replacements.reverse ≠
      applyReplacements cssC9ce (bundle envC9ce).replacements := by
  refine ⟨List.reverse_perm _, ?_⟩
  decide

/-- Claim C9 (amended): provided no discovered path contains `(`, applying the
per-reference replacement passes in any permutation of the replacement entries
yields exactly the implementation's output, which is therefore a deterministic
function of the input text and the per-reference byte contents. -/
theorem claim_C9 (env : Env) (css : Text) (reps' : List (Text × Text))
    (h : env.inputCss = some css)
    (hnp : ∀ p ∈ discoverRefs css, ∀ c ∈ p, c ≠ '(')
    (hperm : reps'.Perm (bundle env).replacements) :
    applyReplacements css reps' = applyReplacements css (bundle env).replacements := by
  have hg := bundle_goodPairs h hnp
  have hg' := goodPairs_of_perm hperm (bundle_keys_nodup h) (bundle_reps_ok h hnp)
  have h1 : Sim (pairsOf reps') css (applyReplacements css reps') :=
    sim_foldPasses hg' css
  have h2 : Sim (pairsOf (bundle env).replacements) css
      (applyReplacements css (bundle env).replacements) := sim_foldPasses hg css
  have h1' : Sim (pairsOf (bundle env).replacements) css (applyReplacements css reps') :=
    h1.memIff (pairsOf_mem_of_perm hperm)
  exact sim_unique (fun kv hkv => (hg.1 kv hkv).1) (nodup_key_fun hg.2.1) h1' h2

def cssC9w : Text := "url(fonts/a.ttf)url(fonts/b.ttf)".toList

def envC9w : Env :=
  { inputCss := some cssC9w, cache := []
    net := [("fonts/a.ttf".toList, [1]), ("fonts/b.ttf".toList, [2])] }

set_option maxRecDepth 1000000 in
theorem claim_C9_witness :
    applyReplacements cssC9w (bundle envC9w).replacements.reverse =
      applyReplacements cssC9w (bundle envC9w).replacements :=
  claim_C9 envC9w cssC9w (bundle envC9w).replacements.reverse rfl (by decide)
    (List.reverse_perm _)

end KatexBundler
